import Mathlib

/-!
Verification of the merge engine of vue-object-merge.

The source function is (src, `stateMerge`):

  export const stateMerge = function(state, value, propName, ignoreNull) {
    if (
      Object.prototype.toString.call(value) === "[object Object]" &&
      (propName == null || state.hasOwnProperty(propName))
    ) {
      const o = propName == null ? state : state[propName];
      for (var prop in value) {
        stateMerge(o, value[prop], prop, ignoreNull);
      }
      return;
    }
    if (!ignoreNull || value !== null) Vue.set(state, propName, value);
  };

We shallowly embed the JavaScript values the function manipulates as
finite trees (`JVal`).  Mutation of the destination is modelled by
returning the updated destination tree; a thrown TypeError is modelled by
`Except.error`.  Reference identity of objects and arrays is modelled by a
numeric `id` tag carried by each composite value: the merge never
allocates, so a value installed wholesale keeps its tag, while any
key-by-key clone would have to build a value with a fresh tag.

Points of the JavaScript semantics that the embedding keeps:
- `Object.prototype.toString.call(value) === "[object Object]"` holds
  exactly for plain objects (`JVal.vobj`); null, undefined, numbers,
  strings, booleans, arrays, and builtin composites (Date, RegExp,
  Function, Math, ...) all produce other tags.
- `for (var prop in value)` enumerates own enumerable keys and then the
  inherited enumerable keys that are not shadowed by an own key; `vobj`
  therefore carries an `own` and an `inh` association list.
- `state.hasOwnProperty(propName)` throws a TypeError when `state` is
  null or undefined; on arrays it is true for in-range indices and for
  non-index expando properties.
- `state[propName]` reads own properties first, then inherited ones.
- `Vue.set(target, key, val)` (the external reactive-write primitive,
  which is out of scope for the repository and modelled from its
  documented contract: install or overwrite `target[key] = val`) replaces
  an element of an array at a valid index, otherwise installs or
  overwrites the property `key`, coercing an undefined key to the string
  "undefined"; on null, undefined, or a primitive target it throws.

Deliberate simplifications, none observable by the claims: property
enumeration order is own-insertion order followed by inherited order
(JavaScript additionally fronts integer-like keys); an array index is
recognised as a canonical digit string (JavaScript also accepts
"01"-style strings in Vue.set); the index properties of boxed strings are
not modelled (every path through them ends in a TypeError anyway).
-/

/-- A JavaScript value, as a finite tree.  `id` tags model reference
identity of composites.  `vbuiltin` stands for any non-plain, non-array
composite (Date, RegExp, Function, Math, ...).  A plain object `vobj`
carries its own enumerable properties `own` and the enumerable properties
`inh` inherited from its prototype chain.  An array `varr` carries its
elements and its non-index expando properties. -/
inductive JVal : Type where
  | vnull : JVal
  | vundefined : JVal
  | vnum (n : Int) : JVal
  | vstr (s : String) : JVal
  | vbool (b : Bool) : JVal
  | vbuiltin (id : Nat) : JVal
  | varr (id : Nat) (elems : List JVal) (props : List (String × JVal)) : JVal
  | vobj (id : Nat) (own : List (String × JVal)) (inh : List (String × JVal)) : JVal
  deriving Repr

/-- First value bound to key `k` in an association list. -/
def lookupStr : List (String × JVal) → String → Option JVal
  | [], _ => none
  | (k1, v) :: rest, k => if k1 = k then some v else lookupStr rest k

/-- Overwrite the first binding of `k`, or append a new binding: the
effect of a property write on a property list. -/
def setOwn : List (String × JVal) → String → JVal → List (String × JVal)
  | [], k, v => [(k, v)]
  | (k1, v1) :: rest, k, v =>
      if k1 = k then (k, v) :: rest else (k1, v1) :: setOwn rest k v

/-- Replace element `i`, padding with undefined when `i` is past the end:
the effect of `Vue.set` on an array at a valid index. -/
def setElem : List JVal → Nat → JVal → List JVal
  | [], 0, v => [v]
  | [], n + 1, v => .vundefined :: setElem [] n v
  | _ :: rest, 0, v => v :: rest
  | e :: rest, n + 1, v => e :: setElem rest n v

/-- Canonical array-index reading of a string: the string is exactly the
decimal rendering of a natural number. -/
def isIdx (s : String) : Option Nat :=
  match s.toNat? with
  | some n => if toString n = s then some n else none
  | none => none

/-- True exactly when `Object.prototype.toString.call` answers
"[object Object]". -/
def isPlainObject : JVal → Bool
  | .vobj _ _ _ => true
  | _ => false

/-- Strict equality with JavaScript null. -/
def isVNull : JVal → Bool
  | .vnull => true
  | _ => false

/-- An undefined property key is coerced to the string "undefined" when
used to install a property. -/
def keyStr : Option String → String
  | none => "undefined"
  | some s => s

/-- Property read on a plain object: own properties first, then the
inherited ones; undefined when the key is absent. -/
def objGet (own inh : List (String × JVal)) (k : String) : JVal :=
  match lookupStr own k with
  | some v => v
  | none => (lookupStr inh k).getD .vundefined

/-- Property read `state[k]`: undefined on every non-composite. -/
def jGet : JVal → String → JVal
  | .vobj _ own inh, k => objGet own inh k
  | .varr _ elems props, k =>
      match isIdx k with
      | some i => elems.getD i .vundefined
      | none => (lookupStr props k).getD .vundefined
  | _, _ => .vundefined

/-- The boolean answer of `hasOwnProperty` on a value it does not throw
on. -/
def hasOwnB : JVal → String → Bool
  | .vobj _ own _, k => (lookupStr own k).isSome
  | .varr _ elems props, k =>
      match isIdx k with
      | some i => decide (i < elems.length)
      | none => (lookupStr props k).isSome
  | _, _ => false

/-- The call `state.hasOwnProperty(k)`: throws a TypeError when `state`
is null or undefined. -/
def hasOwnE : JVal → String → Except String Bool
  | .vnull, _ => .error "TypeError"
  | .vundefined, _ => .error "TypeError"
  | state, k => .ok (hasOwnB state k)

/-- Modelled from the spec: the external reactive-write primitive
`Vue.set(target, key, val)` installs or overwrites `target[key] = val`
(notification of observers is invisible to this model).  At a valid array
index it replaces the element; on a null, undefined, or primitive target
it throws a TypeError. -/
def vueSet (state : JVal) (propName : Option String) (value : JVal) :
    Except String JVal :=
  match state with
  | .vobj id own inh => .ok (.vobj id (setOwn own (keyStr propName) value) inh)
  | .varr id elems props =>
      match isIdx (keyStr propName) with
      | some i => .ok (.varr id (setElem elems i value) props)
      | none => .ok (.varr id elems (setOwn props (keyStr propName) value))
  | _ => .error "TypeError"

/-- Write-back of an in-place mutation of the sub-value `state[k]`: in
the source the alias `o = state[propName]` is mutated, which the tree
model renders by storing the mutated subtree back at `k`.  Only reached
after `state.hasOwnProperty(k)` answered true. -/
def writeOwn (state : JVal) (k : String) (v : JVal) : JVal :=
  match state with
  | .vobj id own inh => .vobj id (setOwn own k v) inh
  | .varr id elems props =>
      match isIdx k with
      | some i => .varr id (setElem elems i v) props
      | none => .varr id elems (setOwn props k v)
  | other => other

/-- The keys that `for (var prop in value)` visits on a plain object with
own list `own` and inherited list `inh`: own keys in insertion order,
then inherited keys not shadowed by an own key. -/
def enumKeysL (own inh : List (String × JVal)) : List String :=
  own.map Prod.fst ++
    (inh.map Prod.fst).filter (fun k => decide (k ∉ own.map Prod.fst))

/-- The keys `for (var prop in value)` visits. -/
def enumKeys : JVal → List String
  | .vobj _ own inh => enumKeysL own inh
  | _ => []

/-- The leaf statement of the source:
`if (!ignoreNull || value !== null) Vue.set(state, propName, value)`. -/
def leafWrite (state value : JVal) (propName : Option String)
    (ignoreNull : Bool) : Except String JVal :=
  if ignoreNull && isVNull value then .ok state
  else vueSet state propName value

theorem sizeOf_lookupStr_lt {l : List (String × JVal)} {k : String} {v : JVal}
    (h : lookupStr l k = some v) : sizeOf v < sizeOf l := by
  induction l with
  | nil => simp [lookupStr] at h
  | cons p rest ih =>
      obtain ⟨k1, v1⟩ := p
      by_cases hk : k1 = k
      · simp [lookupStr, hk] at h
        subst h
        simp
        omega
      · simp [lookupStr, hk] at h
        have := ih h
        simp
        omega

theorem sizeOf_objGet_lt (own inh : List (String × JVal)) (k : String) :
    sizeOf (objGet own inh k) < sizeOf own + sizeOf inh := by
  have hown : 1 ≤ sizeOf own := by
    cases own with
    | nil => simp
    | cons a l => simp; omega
  have hinh : 1 ≤ sizeOf inh := by
    cases inh with
    | nil => simp
    | cons a l => simp; omega
  unfold objGet
  cases ho : lookupStr own k with
  | some v =>
      have := sizeOf_lookupStr_lt ho
      simpa using by omega
  | none =>
      cases hi : lookupStr inh k with
      | some v =>
          have := sizeOf_lookupStr_lt hi
          simp [Option.getD]
          omega
      | none =>
          simp [Option.getD]
          omega

mutual

/-- The merge engine, translated statement-for-statement from the source
`stateMerge(state, value, propName, ignoreNull)`.  The updated
destination is returned; a thrown TypeError is an `Except.error`. -/
def stateMerge (state value : JVal) (propName : Option String)
    (ignoreNull : Bool) : Except String JVal :=
  match value, propName with
  | .vobj _ own inh, none =>
      mergeLoop state own inh (enumKeysL own inh) ignoreNull
  | .vobj oid own inh, some p =>
      match hasOwnE state p with
      | .error e => .error e
      | .ok true =>
          match mergeLoop (jGet state p) own inh (enumKeysL own inh) ignoreNull with
          | .error e => .error e
          | .ok o2 => .ok (writeOwn state p o2)
      | .ok false => leafWrite state (.vobj oid own inh) propName ignoreNull
  | v, pn => leafWrite state v pn ignoreNull
termination_by (sizeOf value, 0)

/-- The loop `for (var prop in value) stateMerge(o, value[prop], prop,
ignoreNull)` over the keys of a plain object with lists `own` and `inh`,
threading the mutated target `o`. -/
def mergeLoop (o : JVal) (own inh : List (String × JVal))
    (keys : List String) (ignoreNull : Bool) : Except String JVal :=
  match keys with
  | [] => .ok o
  | k :: rest =>
      match stateMerge o (objGet own inh k) (some k) ignoreNull with
      | .error e => .error e
      | .ok o2 => mergeLoop o2 own inh rest ignoreNull
termination_by (sizeOf own + sizeOf inh, keys.length + 1)
decreasing_by
  all_goals simp_wf
  · exact Prod.Lex.left _ _ (sizeOf_objGet_lt own inh k)
  · exact Prod.Lex.right _ (by omega)

end

theorem lookupStr_setOwn_self (l : List (String × JVal)) (k : String) (v : JVal) :
    lookupStr (setOwn l k v) k = some v := by
  induction l with
  | nil => simp [setOwn, lookupStr]
  | cons p rest ih =>
      obtain ⟨k1, v1⟩ := p
      by_cases h : k1 = k
      · simp [setOwn, h, lookupStr]
      · simp [setOwn, h, lookupStr, ih]

theorem lookupStr_setOwn_ne {q k : String} (h : q ≠ k) (l : List (String × JVal))
    (v : JVal) : lookupStr (setOwn l k v) q = lookupStr l q := by
  induction l with
  | nil => simp [setOwn, lookupStr, Ne.symm h]
  | cons p rest ih =>
      obtain ⟨k1, v1⟩ := p
      by_cases h1 : k1 = k
      · subst h1
        simp [setOwn, lookupStr, Ne.symm h]
      · simp [setOwn, h1, lookupStr, ih]

theorem setOwn_lookup_self {l : List (String × JVal)} {k : String} {v : JVal}
    (h : lookupStr l k = some v) : setOwn l k v = l := by
  induction l with
  | nil => simp [lookupStr] at h
  | cons p rest ih =>
      obtain ⟨k1, v1⟩ := p
      by_cases h1 : k1 = k
      · subst h1
        simp [lookupStr] at h
        simp [setOwn, h]
      · simp [lookupStr, h1] at h
        simp [setOwn, h1, ih h]

theorem lookupStr_isSome_iff {l : List (String × JVal)} {q : String} :
    (lookupStr l q).isSome = true ↔ q ∈ l.map Prod.fst := by
  induction l with
  | nil => simp [lookupStr]
  | cons p rest ih =>
      obtain ⟨k1, v1⟩ := p
      by_cases h1 : k1 = q
      · simp [lookupStr, h1]
      · simp [lookupStr, h1, ih, Ne.symm h1]

theorem getD_setElem_self : ∀ (l : List JVal) (i : Nat) (v : JVal),
    (setElem l i v).getD i .vundefined = v
  | [], 0, _ => rfl
  | [], n + 1, v => by simpa [setElem] using getD_setElem_self [] n v
  | _ :: _, 0, _ => rfl
  | e :: rest, n + 1, v => by simpa [setElem] using getD_setElem_self rest n v

theorem getD_setElem_ne : ∀ (l : List JVal) (i j : Nat) (v : JVal), j ≠ i →
    (setElem l i v).getD j .vundefined = l.getD j .vundefined
  | [], 0, 0, _, h => absurd rfl h
  | [], 0, _ + 1, _, _ => by simp [setElem, List.getD]
  | [], _ + 1, 0, _, _ => by simp [setElem, List.getD]
  | [], n + 1, j + 1, v, h => by
      simpa [setElem, List.getD] using getD_setElem_ne [] n j v (by omega)
  | _ :: _, 0, 0, _, h => absurd rfl h
  | _ :: rest, 0, _ + 1, _, _ => by simp [setElem]
  | _ :: _, _ + 1, 0, _, _ => by simp [setElem]
  | _ :: rest, n + 1, j + 1, v, h => by
      simpa [setElem] using getD_setElem_ne rest n j v (by omega)

theorem length_setElem : ∀ (l : List JVal) (i : Nat) (v : JVal),
    (setElem l i v).length = max l.length (i + 1)
  | [], 0, _ => rfl
  | [], n + 1, v => by
      simp [setElem, length_setElem [] n v]
  | _ :: rest, 0, _ => by simp [setElem]
  | _ :: rest, n + 1, v => by
      simp [setElem, length_setElem rest n v]
      omega

theorem isIdx_eq_toString {s : String} {n : Nat} (h : isIdx s = some n) :
    toString n = s := by
  unfold isIdx at h
  cases h1 : s.toNat? with
  | none => rw [h1] at h; exact absurd h (by simp)
  | some m =>
      rw [h1] at h
      by_cases h2 : toString m = s
      · simp [h2] at h
        subst h
        exact h2
      · simp [h2] at h

theorem isIdx_inj {q k : String} {n : Nat} (hq : isIdx q = some n)
    (hk : isIdx k = some n) : q = k := by
  rw [← isIdx_eq_toString hq, ← isIdx_eq_toString hk]

theorem stateMerge_obj_none (state : JVal) (oid : Nat)
    (own inh : List (String × JVal)) (ign : Bool) :
    stateMerge state (.vobj oid own inh) none ign =
      mergeLoop state own inh (enumKeysL own inh) ign := by
  simp [stateMerge]

theorem stateMerge_obj_some (state : JVal) (oid : Nat)
    (own inh : List (String × JVal)) (p : String) (ign : Bool) :
    stateMerge state (.vobj oid own inh) (some p) ign =
      match hasOwnE state p with
      | .error e => .error e
      | .ok true =>
          match mergeLoop (jGet state p) own inh (enumKeysL own inh) ign with
          | .error e => .error e
          | .ok o2 => .ok (writeOwn state p o2)
      | .ok false => leafWrite state (.vobj oid own inh) (some p) ign := by
  simp [stateMerge]

theorem stateMerge_leaf (state value : JVal) (p : Option String)
    (ign : Bool) (h : isPlainObject value = false) :
    stateMerge state value p ign = leafWrite state value p ign := by
  cases value <;> simp [isPlainObject] at h ⊢ <;> simp [stateMerge]

theorem mergeLoop_nil (o : JVal) (own inh : List (String × JVal)) (ign : Bool) :
    mergeLoop o own inh [] ign = .ok o := by
  simp [mergeLoop]

theorem mergeLoop_cons (o : JVal) (own inh : List (String × JVal)) (k : String)
    (rest : List String) (ign : Bool) :
    mergeLoop o own inh (k :: rest) ign =
      match stateMerge o (objGet own inh k) (some k) ign with
      | .error e => .error e
      | .ok o2 => mergeLoop o2 own inh rest ign := by
  simp [mergeLoop]

theorem getElem?_setElem_self (l : List JVal) (i : Nat) (v : JVal) :
    (setElem l i v)[i]?.getD .vundefined = v := by
  rw [← List.getD_eq_getElem?_getD]
  exact getD_setElem_self l i v

theorem getElem?_setElem_ne (l : List JVal) (i j : Nat) (v : JVal) (h : j ≠ i) :
    (setElem l i v)[j]?.getD .vundefined = l[j]?.getD .vundefined := by
  rw [← List.getD_eq_getElem?_getD, ← List.getD_eq_getElem?_getD]
  exact getD_setElem_ne l i j v h

theorem vueSet_ok_jGet_self {state s2 value : JVal} {k : String}
    (h : vueSet state (some k) value = .ok s2) : jGet s2 k = value := by
  cases state with
  | vobj id own inh =>
      simp [vueSet, keyStr] at h
      subst h
      simp [jGet, objGet, lookupStr_setOwn_self]
  | varr id elems props =>
      simp [vueSet, keyStr] at h
      cases hi : isIdx k with
      | some i =>
          rw [hi] at h
          simp at h
          subst h
          simp [jGet, hi, getElem?_setElem_self]
      | none =>
          rw [hi] at h
          simp at h
          subst h
          simp [jGet, hi, lookupStr_setOwn_self]
  | vnull => simp [vueSet] at h
  | vundefined => simp [vueSet] at h
  | vnum n => simp [vueSet] at h
  | vstr s => simp [vueSet] at h
  | vbool b => simp [vueSet] at h
  | vbuiltin id => simp [vueSet] at h

theorem vueSet_ok_jGet_ne {state s2 value : JVal} {p : Option String} {q : String}
    (h : vueSet state p value = .ok s2) (hq : q ≠ keyStr p) :
    jGet s2 q = jGet state q := by
  cases state with
  | vobj id own inh =>
      simp [vueSet] at h
      subst h
      simp [jGet, objGet, lookupStr_setOwn_ne hq]
  | varr id elems props =>
      simp [vueSet] at h
      cases hi : isIdx (keyStr p) with
      | some i =>
          rw [hi] at h
          simp at h
          subst h
          cases hj : isIdx q with
          | some j =>
              have hne : j ≠ i := by
                intro hji
                subst hji
                exact hq (isIdx_inj hj hi)
              simp [jGet, hj, getElem?_setElem_ne _ _ _ _ hne]
          | none => simp [jGet, hj]
      | none =>
          rw [hi] at h
          simp at h
          subst h
          cases hj : isIdx q with
          | some j => simp [jGet, hj]
          | none => simp [jGet, hj, lookupStr_setOwn_ne hq]
  | vnull => simp [vueSet] at h
  | vundefined => simp [vueSet] at h
  | vnum n => simp [vueSet] at h
  | vstr s => simp [vueSet] at h
  | vbool b => simp [vueSet] at h
  | vbuiltin id => simp [vueSet] at h

theorem writeOwn_jGet_self {state : JVal} {k : String} (v : JVal)
    (h : hasOwnB state k = true) : jGet (writeOwn state k v) k = v := by
  cases state with
  | vobj id own inh => simp [writeOwn, jGet, objGet, lookupStr_setOwn_self]
  | varr id elems props =>
      cases hi : isIdx k with
      | some i => simp [writeOwn, hi, jGet, getElem?_setElem_self]
      | none => simp [writeOwn, hi, jGet, lookupStr_setOwn_self]
  | vnull => simp [hasOwnB] at h
  | vundefined => simp [hasOwnB] at h
  | vnum n => simp [hasOwnB] at h
  | vstr s => simp [hasOwnB] at h
  | vbool b => simp [hasOwnB] at h
  | vbuiltin id => simp [hasOwnB] at h

theorem writeOwn_jGet_ne (state : JVal) (k : String) (v : JVal) {q : String}
    (hq : q ≠ k) : jGet (writeOwn state k v) q = jGet state q := by
  cases state with
  | vobj id own inh => simp [writeOwn, jGet, objGet, lookupStr_setOwn_ne hq]
  | varr id elems props =>
      cases hi : isIdx k with
      | some i =>
          cases hj : isIdx q with
          | some j =>
              have hne : j ≠ i := by
                intro hji
                subst hji
                exact hq (isIdx_inj hj hi)
              simp [writeOwn, hi, jGet, hj, getElem?_setElem_ne _ _ _ _ hne]
          | none => simp [writeOwn, hi, jGet, hj]
      | none =>
          cases hj : isIdx q with
          | some j => simp [writeOwn, hi, jGet, hj]
          | none => simp [writeOwn, hi, jGet, hj, lookupStr_setOwn_ne hq]
  | vnull => simp [writeOwn]
  | vundefined => simp [writeOwn]
  | vnum n => simp [writeOwn]
  | vstr s => simp [writeOwn]
  | vbool b => simp [writeOwn]
  | vbuiltin id => simp [writeOwn]

theorem isSome_lookupStr_setOwn {l : List (String × JVal)} {q k : String}
    {v : JVal} (h : (lookupStr l q).isSome = true) :
    (lookupStr (setOwn l k v) q).isSome = true := by
  by_cases hqk : q = k
  · subst hqk
    simp [lookupStr_setOwn_self]
  · rwa [lookupStr_setOwn_ne hqk]

theorem hasOwnB_vueSet_self {state s2 value : JVal} {k : String}
    (h : vueSet state (some k) value = .ok s2) : hasOwnB s2 k = true := by
  cases state with
  | vobj id own inh =>
      simp [vueSet, keyStr] at h
      subst h
      simp [hasOwnB, lookupStr_setOwn_self]
  | varr id elems props =>
      simp [vueSet, keyStr] at h
      cases hi : isIdx k with
      | some i =>
          rw [hi] at h
          simp at h
          subst h
          simp [hasOwnB, hi, length_setElem]
      | none =>
          rw [hi] at h
          simp at h
          subst h
          simp [hasOwnB, hi, lookupStr_setOwn_self]
  | vnull => simp [vueSet] at h
  | vundefined => simp [vueSet] at h
  | vnum n => simp [vueSet] at h
  | vstr s => simp [vueSet] at h
  | vbool b => simp [vueSet] at h
  | vbuiltin id => simp [vueSet] at h

theorem hasOwnB_vueSet_mono {state s2 value : JVal} {p : Option String}
    {q : String} (h : vueSet state p value = .ok s2)
    (hq : hasOwnB state q = true) : hasOwnB s2 q = true := by
  cases state with
  | vobj id own inh =>
      simp [vueSet] at h
      subst h
      simp [hasOwnB] at hq ⊢
      exact isSome_lookupStr_setOwn hq
  | varr id elems props =>
      simp [vueSet] at h
      cases hi : isIdx (keyStr p) with
      | some i =>
          rw [hi] at h
          simp at h
          subst h
          simp [hasOwnB] at hq ⊢
          cases hj : isIdx q with
          | some j =>
              rw [hj] at hq
              simp at hq
              simp [length_setElem]
              omega
          | none =>
              rw [hj] at hq
              exact hq
      | none =>
          rw [hi] at h
          simp at h
          subst h
          simp [hasOwnB] at hq ⊢
          cases hj : isIdx q with
          | some j =>
              rw [hj] at hq
              exact hq
          | none =>
              rw [hj] at hq
              exact isSome_lookupStr_setOwn hq
  | vnull => simp [vueSet] at h
  | vundefined => simp [vueSet] at h
  | vnum n => simp [vueSet] at h
  | vstr s => simp [vueSet] at h
  | vbool b => simp [vueSet] at h
  | vbuiltin id => simp [vueSet] at h

theorem hasOwnB_writeOwn_mono {state : JVal} {k : String} {v : JVal}
    {q : String} (hq : hasOwnB state q = true) :
    hasOwnB (writeOwn state k v) q = true := by
  cases state with
  | vobj id own inh =>
      simp [writeOwn, hasOwnB] at hq ⊢
      exact isSome_lookupStr_setOwn hq
  | varr id elems props =>
      cases hi : isIdx k with
      | some i =>
          simp [writeOwn, hi, hasOwnB] at hq ⊢
          cases hj : isIdx q with
          | some j =>
              rw [hj] at hq
              simp at hq
              simp [length_setElem]
              omega
          | none =>
              rw [hj] at hq
              exact hq
      | none =>
          simp [writeOwn, hi, hasOwnB] at hq ⊢
          cases hj : isIdx q with
          | some j =>
              rw [hj] at hq
              exact hq
          | none =>
              rw [hj] at hq
              exact isSome_lookupStr_setOwn hq
  | vnull => simp [hasOwnB] at hq
  | vundefined => simp [hasOwnB] at hq
  | vnum n => simp [hasOwnB] at hq
  | vstr s => simp [hasOwnB] at hq
  | vbool b => simp [hasOwnB] at hq
  | vbuiltin id => simp [hasOwnB] at hq

theorem leafWrite_frame {s s2 w : JVal} {p : Option String} {q : String}
    {ign : Bool} (h : leafWrite s w p ign = .ok s2) (hq : q ≠ keyStr p) :
    jGet s2 q = jGet s q := by
  unfold leafWrite at h
  split at h
  · cases h
    rfl
  · exact vueSet_ok_jGet_ne h hq

theorem leafWrite_hasOwn_mono {s s2 w : JVal} {p : Option String} {q : String}
    {ign : Bool} (h : leafWrite s w p ign = .ok s2)
    (hq : hasOwnB s q = true) : hasOwnB s2 q = true := by
  unfold leafWrite at h
  split at h
  · cases h
    exact hq
  · exact hasOwnB_vueSet_mono h hq

theorem stateMerge_some_frame {s s2 w : JVal} {k q : String} {ign : Bool}
    (h : stateMerge s w (some k) ign = .ok s2) (hq : q ≠ k) :
    jGet s2 q = jGet s q := by
  by_cases hw : isPlainObject w = true
  · cases w
    case pos.vobj oid own inh =>
      rw [stateMerge_obj_some] at h
      split at h
      · exact absurd h (by simp)
      · split at h
        · exact absurd h (by simp)
        · next o2 hL =>
            simp only [Except.ok.injEq] at h
            subst h
            exact writeOwn_jGet_ne s k o2 hq
      · exact leafWrite_frame h hq
    all_goals simp [isPlainObject] at hw
  · rw [stateMerge_leaf s w (some k) ign (by simpa using hw)] at h
    exact leafWrite_frame h hq

theorem stateMerge_some_hasOwn_mono {s s2 w : JVal} {k : String} {ign : Bool}
    (h : stateMerge s w (some k) ign = .ok s2) {q : String}
    (hq : hasOwnB s q = true) : hasOwnB s2 q = true := by
  by_cases hw : isPlainObject w = true
  · cases w
    case pos.vobj oid own inh =>
      rw [stateMerge_obj_some] at h
      split at h
      · exact absurd h (by simp)
      · split at h
        · exact absurd h (by simp)
        · next o2 hL =>
            simp only [Except.ok.injEq] at h
            subst h
            exact hasOwnB_writeOwn_mono hq
      · exact leafWrite_hasOwn_mono h hq
    all_goals simp [isPlainObject] at hw
  · rw [stateMerge_leaf s w (some k) ign (by simpa using hw)] at h
    exact leafWrite_hasOwn_mono h hq

theorem mergeLoop_frame {own inh : List (String × JVal)} {ign : Bool}
    {keys : List String} :
    ∀ {o o2 : JVal}, mergeLoop o own inh keys ign = .ok o2 →
      ∀ {q : String}, q ∉ keys → jGet o2 q = jGet o q := by
  induction keys with
  | nil =>
      intro o o2 h q _
      rw [mergeLoop_nil] at h
      cases h
      rfl
  | cons k rest ih =>
      intro o o2 h q hq
      rw [mergeLoop_cons] at h
      split at h
      · exact absurd h (by simp)
      · next o1 hstep =>
          have hqk : q ≠ k := fun hkq => hq (hkq ▸ List.mem_cons_self k rest)
          have hqrest : q ∉ rest := fun hr => hq (List.mem_cons_of_mem k hr)
          rw [ih h hqrest, stateMerge_some_frame hstep hqk]

theorem mergeLoop_hasOwn_mono {own inh : List (String × JVal)} {ign : Bool}
    {keys : List String} :
    ∀ {o o2 : JVal}, mergeLoop o own inh keys ign = .ok o2 →
      ∀ {q : String}, hasOwnB o q = true → hasOwnB o2 q = true := by
  induction keys with
  | nil =>
      intro o o2 h q hq
      rw [mergeLoop_nil] at h
      cases h
      exact hq
  | cons k rest ih =>
      intro o o2 h q hq
      rw [mergeLoop_cons] at h
      split at h
      · exact absurd h (by simp)
      · next o1 hstep =>
          exact ih h (stateMerge_some_hasOwn_mono hstep hq)

theorem stateMerge_vundef {w : JVal} {k : String} {ign : Bool} {x : JVal}
    (h : stateMerge .vundefined w (some k) ign = .ok x) : x = .vundefined := by
  by_cases hw : isPlainObject w = true
  · cases w
    case pos.vobj oid own inh =>
      rw [stateMerge_obj_some] at h
      split at h
      · exact absurd h (by simp)
      · next hE => simp [hasOwnE] at hE
      · next hE => simp [hasOwnE] at hE
    all_goals simp [isPlainObject] at hw
  · rw [stateMerge_leaf .vundefined w (some k) ign (by simpa using hw)] at h
    unfold leafWrite at h
    split at h
    · cases h
      rfl
    · simp [vueSet] at h

theorem mergeLoop_vundef {own inh : List (String × JVal)} {ign : Bool}
    {keys : List String} :
    ∀ {o2 : JVal}, mergeLoop .vundefined own inh keys ign = .ok o2 →
      o2 = .vundefined := by
  induction keys with
  | nil =>
      intro o2 h
      rw [mergeLoop_nil] at h
      cases h
      rfl
  | cons k rest ih =>
      intro o2 h
      rw [mergeLoop_cons] at h
      split at h
      · exact absurd h (by simp)
      · next o1 hstep =>
          rw [stateMerge_vundef hstep] at h
          exact ih h

theorem mergeLoop_append (o : JVal) (own inh : List (String × JVal))
    (a b : List String) (ign : Bool) :
    mergeLoop o own inh (a ++ b) ign =
      match mergeLoop o own inh a ign with
      | .error e => .error e
      | .ok o1 => mergeLoop o1 own inh b ign := by
  induction a generalizing o with
  | nil => simp [mergeLoop_nil]
  | cons k rest ih =>
      rw [List.cons_append, mergeLoop_cons, mergeLoop_cons]
      cases stateMerge o (objGet own inh k) (some k) ign <;> simp [ih]

mutual

/-- Nesting depth of a source value: the number of nested plain-object
levels, which is exactly the number of recursion levels the merge spends
on it (arrays and other composites are leaves and contribute nothing). -/
def jdepth : JVal → Nat
  | .vobj _ own inh => 1 + max (depthL own) (depthL inh)
  | _ => 0

/-- Largest nesting depth of the values of a property list. -/
def depthL : List (String × JVal) → Nat
  | [] => 0
  | (_, v) :: rest => max (jdepth v) (depthL rest)

end

/-- One step of the enumeration loop, abstracted over the recursive call
so that the fueled merge below is structurally recursive on its fuel. -/
def runLoop (step : JVal → String → Option (Except String JVal)) :
    JVal → List String → Option (Except String JVal)
  | o, [] => some (.ok o)
  | o, k :: rest =>
      match step o k with
      | none => none
      | some (.error e) => some (.error e)
      | some (.ok o2) => runLoop step o2 rest

/-- The merge engine with an explicit recursion-depth budget: `none`
means the call tree is deeper than `fuel` stack frames.  Mirrors
`stateMerge` frame for frame. -/
def stateMergeF : Nat → JVal → JVal → Option String → Bool →
    Option (Except String JVal)
  | 0, _, _, _, _ => none
  | fuel + 1, state, value, propName, ign =>
      match value, propName with
      | .vobj _ own inh, none =>
          runLoop (fun o k => stateMergeF fuel o (objGet own inh k) (some k) ign)
            state (enumKeysL own inh)
      | .vobj oid own inh, some p =>
          match hasOwnE state p with
          | .error e => some (.error e)
          | .ok true =>
              match runLoop
                  (fun o k => stateMergeF fuel o (objGet own inh k) (some k) ign)
                  (jGet state p) (enumKeysL own inh) with
              | none => none
              | some (.error e) => some (.error e)
              | some (.ok o2) => some (.ok (writeOwn state p o2))
          | .ok false => some (leafWrite state (.vobj oid own inh) propName ign)
      | v, pn => some (leafWrite state v pn ign)

theorem runLoop_mono {step1 step2 : JVal → String → Option (Except String JVal)}
    (hstep : ∀ o k r, step1 o k = some r → step2 o k = some r) :
    ∀ {keys : List String} {o : JVal} {r : Except String JVal},
      runLoop step1 o keys = some r → runLoop step2 o keys = some r := by
  intro keys
  induction keys with
  | nil => intro o r h; exact h
  | cons k rest ih =>
      intro o r h
      unfold runLoop at h ⊢
      cases h1 : step1 o k with
      | none => rw [h1] at h; exact absurd h (by simp)
      | some r1 =>
          rw [hstep o k r1 h1]
          rw [h1] at h
          cases r1 with
          | error e => exact h
          | ok o2 => exact ih h

theorem stateMergeF_zero (s v : JVal) (p : Option String) (ign : Bool) :
    stateMergeF 0 s v p ign = none := rfl

theorem stateMergeF_obj_none (fuel : Nat) (s : JVal) (oid : Nat)
    (own inh : List (String × JVal)) (ign : Bool) :
    stateMergeF (fuel + 1) s (.vobj oid own inh) none ign =
      runLoop (fun o k => stateMergeF fuel o (objGet own inh k) (some k) ign)
        s (enumKeysL own inh) := rfl

theorem stateMergeF_obj_some (fuel : Nat) (s : JVal) (oid : Nat)
    (own inh : List (String × JVal)) (p : String) (ign : Bool) :
    stateMergeF (fuel + 1) s (.vobj oid own inh) (some p) ign =
      match hasOwnE s p with
      | .error e => some (.error e)
      | .ok true =>
          match runLoop
              (fun o k => stateMergeF fuel o (objGet own inh k) (some k) ign)
              (jGet s p) (enumKeysL own inh) with
          | none => none
          | some (.error e) => some (.error e)
          | some (.ok o2) => some (.ok (writeOwn s p o2))
      | .ok false => some (leafWrite s (.vobj oid own inh) (some p) ign) := rfl

theorem stateMergeF_leaf (fuel : Nat) (s v : JVal) (pn : Option String)
    (ign : Bool) (h : isPlainObject v = false) :
    stateMergeF (fuel + 1) s v pn ign = some (leafWrite s v pn ign) := by
  cases v
  case vobj oid own inh => simp [isPlainObject] at h
  all_goals cases pn <;> rfl

theorem stateMergeF_mono : ∀ {fuel : Nat} {s v : JVal} {p : Option String}
    {ign : Bool} {r : Except String JVal},
    stateMergeF fuel s v p ign = some r → stateMergeF (fuel + 1) s v p ign = some r := by
  intro fuel
  induction fuel with
  | zero => intro s v p ign r h; exact absurd h (by simp [stateMergeF])
  | succ fuel ih =>
      intro s v p ign r h
      by_cases hv : isPlainObject v = true
      · cases v
        case pos.vobj oid own inh =>
          cases p with
          | none =>
              rw [stateMergeF_obj_none] at h ⊢
              exact runLoop_mono (fun o k r2 h2 => ih h2) h
          | some p =>
              rw [stateMergeF_obj_some] at h ⊢
              cases hE : hasOwnE s p with
              | error e =>
                  rw [hE] at h
                  exact h
              | ok b =>
                  rw [hE] at h
                  cases b
                  · exact h
                  · cases hL : runLoop
                        (fun o k => stateMergeF fuel o (objGet own inh k) (some k) ign)
                        (jGet s p) (enumKeysL own inh) with
                    | none =>
                        rw [hL] at h
                        exact Option.noConfusion h
                    | some r1 =>
                        rw [hL] at h
                        rw [runLoop_mono (fun o k r2 h2 => ih h2) hL]
                        exact h
        all_goals simp [isPlainObject] at hv
      · rw [stateMergeF_leaf fuel s v p ign (by simpa using hv)] at h
        rw [stateMergeF_leaf (fuel + 1) s v p ign (by simpa using hv)]
        exact h

theorem jdepth_lookupStr {l : List (String × JVal)} {k : String} {v : JVal}
    (h : lookupStr l k = some v) : jdepth v ≤ depthL l := by
  induction l with
  | nil => simp [lookupStr] at h
  | cons p rest ih =>
      obtain ⟨k1, v1⟩ := p
      by_cases h1 : k1 = k
      · simp [lookupStr, h1] at h
        subst h
        simp [depthL]
      · simp [lookupStr, h1] at h
        simp [depthL]
        exact Or.inr (ih h)

theorem jdepth_objGet (own inh : List (String × JVal)) (k : String) :
    jdepth (objGet own inh k) ≤ max (depthL own) (depthL inh) := by
  unfold objGet
  cases ho : lookupStr own k with
  | some v => exact le_trans (jdepth_lookupStr ho) (le_max_left _ _)
  | none =>
      cases hi : lookupStr inh k with
      | some v => simpa using le_trans (jdepth_lookupStr hi) (le_max_right _ _)
      | none => simp [jdepth]

theorem stateMergeF_spec_aux : ∀ (n : Nat) (v : JVal), sizeOf v ≤ n →
    ∀ (fuel : Nat), jdepth v + 1 ≤ fuel → ∀ (s : JVal) (p : Option String)
      (ign : Bool), stateMergeF fuel s v p ign = some (stateMerge s v p ign) := by
  intro n
  induction n with
  | zero =>
      intro v hv
      exact absurd hv (by cases v <;> simp)
  | succ n ih =>
      intro v hv fuel hfuel s p ign
      obtain ⟨fuel2, rfl⟩ : ∃ f2, fuel = f2 + 1 := ⟨fuel - 1, by omega⟩
      by_cases hplain : isPlainObject v = true
      · cases v
        case pos.vobj oid own inh =>
          have hloop : ∀ (keys : List String) (o : JVal),
              runLoop (fun o k => stateMergeF fuel2 o (objGet own inh k) (some k) ign)
                o keys = some (mergeLoop o own inh keys ign) := by
            intro keys
            induction keys with
            | nil => intro o; simp [runLoop, mergeLoop_nil]
            | cons k rest ihk =>
                intro o
                have hsz : sizeOf (JVal.vobj oid own inh) =
                    1 + sizeOf oid + sizeOf own + sizeOf inh := by simp
                have hszg := sizeOf_objGet_lt own inh k
                have hd := jdepth_objGet own inh k
                have hdv : jdepth (JVal.vobj oid own inh) =
                    1 + max (depthL own) (depthL inh) := by simp [jdepth]
                have hstep : stateMergeF fuel2 o (objGet own inh k) (some k) ign
                    = some (stateMerge o (objGet own inh k) (some k) ign) := by
                  apply ih
                  · omega
                  · omega
                unfold runLoop
                rw [hstep, mergeLoop_cons]
                cases stateMerge o (objGet own inh k) (some k) ign with
                | error e => rfl
                | ok o2 => simpa using ihk o2
          cases p with
          | none => rw [stateMergeF_obj_none, stateMerge_obj_none, hloop]
          | some p =>
              rw [stateMergeF_obj_some, stateMerge_obj_some]
              cases hE : hasOwnE s p with
              | error e => rfl
              | ok b =>
                  cases b
                  · rfl
                  · rw [hloop]
                    cases mergeLoop (jGet s p) own inh (enumKeysL own inh) ign <;> rfl
        all_goals simp [isPlainObject] at hplain
      · rw [stateMergeF_leaf fuel2 s v p ign (by simpa using hplain),
            stateMerge_leaf s v p ign (by simpa using hplain)]

theorem stateMergeF_spec (v : JVal) (fuel : Nat) (h : jdepth v + 1 ≤ fuel)
    (s : JVal) (p : Option String) (ign : Bool) :
    stateMergeF fuel s v p ign = some (stateMerge s v p ign) :=
  stateMergeF_spec_aux (sizeOf v) v le_rfl fuel h s p ign

theorem stateMergeF_le {f1 f2 : Nat} (h : f1 ≤ f2) {s v : JVal}
    {p : Option String} {ign : Bool} {r : Except String JVal}
    (hr : stateMergeF f1 s v p ign = some r) :
    stateMergeF f2 s v p ign = some r := by
  induction f2, h using Nat.le_induction with
  | base => exact hr
  | succ f2 hf ih => exact stateMergeF_mono ih

theorem stateMerge_eval {fuel : Nat} {s v : JVal} {p : Option String}
    {ign : Bool} {r : Except String JVal}
    (h : stateMergeF fuel s v p ign = some r) : stateMerge s v p ign = r := by
  have h2 : stateMergeF (max fuel (jdepth v + 1)) s v p ign = some r :=
    stateMergeF_le (le_max_left _ _) h
  rw [stateMergeF_spec v _ (le_max_right _ _) s p ign] at h2
  exact Option.some.inj h2

theorem isVNull_eq {w : JVal} (h : isVNull w = true) : w = .vnull := by
  cases w <;> first | rfl | simp [isVNull] at h

theorem leafWrite_ok_jGet_self {s s2 w : JVal} {k : String} {ign : Bool}
    (h : leafWrite s w (some k) ign = .ok s2)
    (hnn : ign = true → w ≠ .vnull) : jGet s2 k = w := by
  unfold leafWrite at h
  split at h
  · next hcond =>
      rw [Bool.and_eq_true] at hcond
      exact absurd (isVNull_eq hcond.2) (hnn hcond.1)
  · exact vueSet_ok_jGet_self h

theorem stateMerge_some_leaf_set {s s2 w : JVal} {k : String} {ign : Bool}
    (h : stateMerge s w (some k) ign = .ok s2)
    (hw : isPlainObject w = false) (hnn : ign = true → w ≠ .vnull) :
    jGet s2 k = w := by
  rw [stateMerge_leaf s w (some k) ign hw] at h
  exact leafWrite_ok_jGet_self h hnn

theorem exists_last_split {q : String} {keys : List String} (h : q ∈ keys) :
    ∃ a b, keys = a ++ q :: b ∧ q ∉ b := by
  induction keys with
  | nil => cases h
  | cons k rest ih =>
      by_cases hq : q ∈ rest
      · obtain ⟨a, b, hab, hnb⟩ := ih hq
        exact ⟨k :: a, b, by rw [hab]; rfl, hnb⟩
      · have hqk : q = k := by
          rcases List.mem_cons.mp h with h1 | h1
          · exact h1
          · exact absurd h1 hq
        subst hqk
        exact ⟨[], rest, rfl, hq⟩

theorem mergeLoop_set_last {own inh : List (String × JVal)} {ign : Bool}
    {a b : List String} {q : String} {o o2 : JVal}
    (h : mergeLoop o own inh (a ++ q :: b) ign = .ok o2)
    (hqb : q ∉ b) (hw : isPlainObject (objGet own inh q) = false)
    (hnn : ign = true → objGet own inh q ≠ .vnull) :
    jGet o2 q = objGet own inh q := by
  rw [mergeLoop_append] at h
  split at h
  · exact absurd h (by simp)
  · next o1 ha =>
      rw [mergeLoop_cons] at h
      split at h
      · exact absurd h (by simp)
      · next o15 hstep =>
          rw [mergeLoop_frame h hqb]
          exact stateMerge_some_leaf_set hstep hw hnn

theorem mem_enumKeysL_iff {own inh : List (String × JVal)} {q : String} :
    q ∈ enumKeysL own inh ↔ q ∈ own.map Prod.fst ∨ q ∈ inh.map Prod.fst := by
  by_cases ho : q ∈ own.map Prod.fst <;>
    simp [enumKeysL, List.mem_filter, ho]

theorem lookupStr_eq_none_of_not_mem {l : List (String × JVal)} {q : String}
    (h : q ∉ l.map Prod.fst) : lookupStr l q = none := by
  cases hl : lookupStr l q with
  | none => rfl
  | some v =>
      exact absurd (lookupStr_isSome_iff.mp (by simp [hl])) h

theorem not_mem_enumKeysL_objGet {own inh : List (String × JVal)} {q : String}
    (h : q ∉ enumKeysL own inh) : objGet own inh q = .vundefined := by
  rw [mem_enumKeysL_iff] at h
  push_neg at h
  obtain ⟨h1, h2⟩ := h
  unfold objGet
  rw [lookupStr_eq_none_of_not_mem h1, lookupStr_eq_none_of_not_mem h2]
  rfl

theorem hasOwnE_ok {state : JVal} {k : String} {b : Bool}
    (h : hasOwnE state k = .ok b) : hasOwnB state k = b := by
  cases state <;> simp_all [hasOwnE, hasOwnB]

theorem setElem_getD_cancel : ∀ (l : List JVal) (i : Nat), i < l.length →
    setElem l i (l.getD i .vundefined) = l
  | [], i, h => absurd h (by simp)
  | e :: rest, 0, _ => by simp [setElem]
  | e :: rest, n + 1, h => by
      simpa [setElem] using setElem_getD_cancel rest n (by simpa using h)

theorem writeOwn_jGet_cancel {state : JVal} {k : String}
    (h : hasOwnB state k = true) : writeOwn state k (jGet state k) = state := by
  cases state with
  | vobj id own inh =>
      simp [hasOwnB] at h
      obtain ⟨v, hv⟩ := Option.isSome_iff_exists.mp h
      simp [writeOwn, jGet, objGet, hv, setOwn_lookup_self hv]
  | varr id elems props =>
      cases hi : isIdx k with
      | some i =>
          simp [hasOwnB, hi] at h
          have := setElem_getD_cancel elems i h
          simp [writeOwn, hi, jGet, List.getD] at this ⊢
          exact this
      | none =>
          simp [hasOwnB, hi] at h
          obtain ⟨v, hv⟩ := Option.isSome_iff_exists.mp h
          simp [writeOwn, hi, jGet, hv, setOwn_lookup_self hv]
  | vnull => simp [hasOwnB] at h
  | vundefined => simp [hasOwnB] at h
  | vnum n => simp [hasOwnB] at h
  | vstr s => simp [hasOwnB] at h
  | vbool b => simp [hasOwnB] at h
  | vbuiltin id => simp [hasOwnB] at h

theorem lookupStr_of_mem_nodup {l : List (String × JVal)} {k : String} {w : JVal}
    (hnd : (l.map Prod.fst).Nodup) (hm : (k, w) ∈ l) :
    lookupStr l k = some w := by
  induction l with
  | nil => cases hm
  | cons p rest ih =>
      obtain ⟨k1, v1⟩ := p
      rw [List.map_cons, List.nodup_cons] at hnd
      rcases List.mem_cons.mp hm with h1 | h1
      · injection h1 with h1a h1b
        cases h1a
        cases h1b
        simp [lookupStr]
      · have hkm : k ∈ rest.map Prod.fst := List.mem_map.mpr ⟨(k, w), h1, rfl⟩
        have hne : k1 ≠ k := fun hkk => hnd.1 (hkk ▸ hkm)
        simp [lookupStr, hne, ih hnd.2 h1]

/-- C2: when the destination has no own property named `k`, merging a
plain-object source value under key `k` installs that object wholesale:
afterwards the destination property at `k` is the supplied source object
itself (same identity tag, same tree — no deep clone and no per-key
recursion). -/
theorem stateMerge_install_wholesale {state v s2 : JVal} {k : String}
    {ign : Bool} (hplain : isPlainObject v = true)
    (hnotown : hasOwnE state k = .ok false)
    (h : stateMerge state v (some k) ign = .ok s2) :
    jGet s2 k = v := by
  cases v
  case vobj oid own inh =>
    rw [stateMerge_obj_some, hnotown] at h
    exact leafWrite_ok_jGet_self h (fun _ h2 => JVal.noConfusion h2)
  all_goals simp [isPlainObject] at hplain

/-- Witness for C2: merging the plain object `{b: 2}` (identity tag 7)
under the absent key "a" of `{x: 1}` installs it wholesale. -/
theorem stateMerge_install_wholesale_witness :
    jGet (JVal.vobj 0 [("x", JVal.vnum 1), ("a", JVal.vobj 7 [("b", JVal.vnum 2)] [])] []) "a"
      = JVal.vobj 7 [("b", JVal.vnum 2)] [] := by
  have h := stateMerge_eval (show stateMergeF 5 (JVal.vobj 0 [("x", JVal.vnum 1)] [])
      (JVal.vobj 7 [("b", JVal.vnum 2)] []) (some "a") false
      = some (.ok (JVal.vobj 0
        [("x", JVal.vnum 1), ("a", JVal.vobj 7 [("b", JVal.vnum 2)] [])] [])) from rfl)
  refine stateMerge_install_wholesale ?_ ?_ h
  · rfl
  · rfl

/-- C5: an array source value is always leaf-assigned: the destination
property is fully replaced by the supplied array (same identity tag:
reference equality), never merged element-wise with an existing
destination array. -/
theorem stateMerge_array_leaf (sid : Nat) (sown sinh : List (String × JVal))
    (k : String) (aid : Nat) (elems : List JVal)
    (props : List (String × JVal)) (ign : Bool) :
    stateMerge (.vobj sid sown sinh) (.varr aid elems props) (some k) ign
      = .ok (.vobj sid (setOwn sown k (.varr aid elems props)) sinh) ∧
    jGet (.vobj sid (setOwn sown k (.varr aid elems props)) sinh) k
      = .varr aid elems props := by
  constructor
  · rw [stateMerge_leaf _ (.varr aid elems props) (some k) ign rfl]
    simp [leafWrite, isVNull, vueSet, keyStr]
  · simp [jGet, objGet, lookupStr_setOwn_self]

/-- C3: null suppression.  (1) With `suppressNullOverwrite` true, a null
source value never changes the destination, whatever the property name.
(2) With the flag false, null overwrites the destination property
normally.  (3) The flag is passed through the recursive calls, so a null
nested two levels deep is suppressed as well and the whole state is left
unchanged. -/
theorem stateMerge_null_suppression :
    (∀ (state : JVal) (p : Option String),
      stateMerge state .vnull p true = .ok state) ∧
    (∀ (sid : Nat) (sown sinh : List (String × JVal)) (k : String),
      stateMerge (.vobj sid sown sinh) .vnull (some k) false
        = .ok (.vobj sid (setOwn sown k .vnull) sinh)) ∧
    (∀ (sid oid iid : Nat) (sown sinh : List (String × JVal)) (k q : String),
      hasOwnB (.vobj sid sown sinh) k = true →
      stateMerge (.vobj sid sown sinh)
          (.vobj oid [(k, .vobj iid [(q, .vnull)] [])] []) none true
        = .ok (.vobj sid sown sinh)) := by
  refine ⟨?_, ?_, ?_⟩
  · intro state p
    rw [stateMerge_leaf state .vnull p true rfl]
    simp [leafWrite, isVNull]
  · intro sid sown sinh k
    rw [stateMerge_leaf _ .vnull (some k) false rfl]
    simp [leafWrite, isVNull, vueSet, keyStr]
  · intro sid oid iid sown sinh k q hk
    have hkeys : enumKeysL [(k, JVal.vobj iid [(q, JVal.vnull)] [])]
        ([] : List (String × JVal)) = [k] := by
      simp [enumKeysL]
    rw [stateMerge_obj_none, hkeys, mergeLoop_cons]
    have hob : objGet [(k, JVal.vobj iid [(q, JVal.vnull)] [])] [] k
        = JVal.vobj iid [(q, JVal.vnull)] [] := by
      simp [objGet, lookupStr]
    have hstep : stateMerge (JVal.vobj sid sown sinh)
        (objGet [(k, JVal.vobj iid [(q, JVal.vnull)] [])] [] k) (some k) true
        = .ok (JVal.vobj sid sown sinh) := by
      rw [hob, stateMerge_obj_some]
      have hE : hasOwnE (JVal.vobj sid sown sinh) k = .ok true := by
        simp [hasOwnE, hk]
      rw [hE]
      have hkeys2 : enumKeysL [(q, JVal.vnull)] ([] : List (String × JVal))
          = [q] := by
        simp [enumKeysL]
      rw [hkeys2]
      have hinner : mergeLoop (jGet (JVal.vobj sid sown sinh) k)
          [(q, JVal.vnull)] [] [q] true
          = .ok (jGet (JVal.vobj sid sown sinh) k) := by
        rw [mergeLoop_cons]
        have hoq : objGet [(q, JVal.vnull)] [] q = JVal.vnull := by
          simp [objGet, lookupStr]
        have hskip : stateMerge (jGet (JVal.vobj sid sown sinh) k)
            (objGet [(q, JVal.vnull)] [] q) (some q) true
            = .ok (jGet (JVal.vobj sid sown sinh) k) := by
          rw [hoq, stateMerge_leaf _ .vnull (some q) true rfl]
          simp [leafWrite, isVNull]
        rw [hskip]
        exact mergeLoop_nil _ _ _ _
      rw [hinner]
      have hcancel := writeOwn_jGet_cancel hk
      simp only [hcancel]
    rw [hstep]
    exact mergeLoop_nil _ _ _ _

/-- Witness for C3: a null nested below the existing key "k" of
`{k: {q: 7}}` is suppressed at the inner recursion level and the state is
returned unchanged. -/
theorem stateMerge_null_suppression_witness :
    stateMerge (JVal.vobj 0 [("k", JVal.vobj 3 [("q", JVal.vnum 7)] [])] [])
        (JVal.vobj 1 [("k", JVal.vobj 2 [("q", JVal.vnull)] [])] []) none true
      = .ok (JVal.vobj 0 [("k", JVal.vobj 3 [("q", JVal.vnum 7)] [])] []) :=
  stateMerge_null_suppression.2.2 0 1 2 [("k", JVal.vobj 3 [("q", JVal.vnum 7)] [])]
    [] "k" "q" rfl

/-- C7 counterexample: the claim says a non-container source value with
no property name raises an InvalidArgument error and performs no
assignment.  The code has no such error path: on `state = {}`,
`value = 5`, `propertyName` absent, the merge returns normally and has
assigned 5 under the coerced property name "undefined". -/
theorem stateMerge_no_propName_counterexample :
    stateMerge (JVal.vobj 0 [] []) (JVal.vnum 5) none false
      = .ok (JVal.vobj 0 [("undefined", JVal.vnum 5)] []) :=
  stateMerge_eval (show stateMergeF 5 (JVal.vobj 0 [] []) (JVal.vnum 5) none false
    = some (.ok (JVal.vobj 0 [("undefined", JVal.vnum 5)] [])) from rfl)

/-- C7 amended: supplying a non-plain-object source value with no
propertyName at the top level does not raise; unless the null-suppression
corner applies, the value is leaf-assigned to the destination under the
stringified missing key "undefined", mutating the destination. -/
theorem stateMerge_no_propName_assigns (v : JVal) (sid : Nat)
    (sown sinh : List (String × JVal)) (ign : Bool)
    (hnp : isPlainObject v = false) (hnn : ign = true → v ≠ .vnull) :
    stateMerge (.vobj sid sown sinh) v none ign
      = .ok (.vobj sid (setOwn sown "undefined" v) sinh) := by
  rw [stateMerge_leaf _ v none ign hnp]
  have hc : (ign && isVNull v) = false := by
    by_cases hig : ign = true
    · subst hig
      cases hv : isVNull v
      · simp [hv]
      · exact absurd (isVNull_eq hv) (hnn rfl)
    · rw [Bool.not_eq_true] at hig
      simp [hig]
  simp [leafWrite, hc, vueSet, keyStr]

/-- Witness for C7 amended at `state = {x: 1}`, `value = true`. -/
theorem stateMerge_no_propName_assigns_witness :
    stateMerge (JVal.vobj 0 [("x", JVal.vnum 1)] []) (JVal.vbool true) none false
      = .ok (JVal.vobj 0
          [("x", JVal.vnum 1), ("undefined", JVal.vbool true)] []) := by
  have h := stateMerge_no_propName_assigns (JVal.vbool true) 0
    [("x", JVal.vnum 1)] [] false rfl (fun hf => absurd hf (by simp))
  simpa [setOwn] using h

/-- C10: the enumeration loop visits inherited enumerable keys of the
source, not only own keys, and each such key is merged into the
destination.  First part: every inherited key of a plain source value is
among the enumerated keys.  Second part: for a source object carrying
only inherited (prototype-chain) enumerable properties, a successful
top-level merge writes every one of those inherited properties into the
destination. -/
theorem stateMerge_inherited_keys :
    (∀ (oid : Nat) (own inh : List (String × JVal)) (k : String),
      k ∈ inh.map Prod.fst → k ∈ enumKeys (.vobj oid own inh)) ∧
    (∀ (sid oid : Nat) (sown sinh inh : List (String × JVal)) (ign : Bool)
      (s2 : JVal),
      (inh.map Prod.fst).Nodup →
      (∀ p ∈ inh, isPlainObject p.2 = false ∧ p.2 ≠ .vnull) →
      stateMerge (.vobj sid sown sinh) (.vobj oid [] inh) none ign = .ok s2 →
      ∀ p ∈ inh, jGet s2 p.1 = p.2) := by
  constructor
  · intro oid own inh k hk
    simp only [enumKeys]
    exact mem_enumKeysL_iff.mpr (Or.inr hk)
  · intro sid oid sown sinh inh ign s2 hnd hleaf h p hp
    rw [stateMerge_obj_none] at h
    have hget : objGet [] inh p.1 = p.2 := by
      simp [objGet, lookupStr, lookupStr_of_mem_nodup hnd (by simpa using hp)]
    have hmem : p.1 ∈ enumKeysL [] inh := by
      exact mem_enumKeysL_iff.mpr (Or.inr (List.mem_map.mpr ⟨p, hp, rfl⟩))
    obtain ⟨a, b, hab, hnb⟩ := exists_last_split hmem
    rw [hab] at h
    have := mergeLoop_set_last h hnb
      (by rw [hget]; exact (hleaf p hp).1)
      (fun _ => by rw [hget]; exact (hleaf p hp).2)
    rw [hget] at this
    exact this

/-- Witness for C10: the source object with identity tag 9 has no own
properties and one inherited enumerable property `b = 2`; merging it into
`{a: 1}` writes `b` into the destination. -/
theorem stateMerge_inherited_keys_witness :
    jGet (JVal.vobj 0 [("a", JVal.vnum 1), ("b", JVal.vnum 2)] []) "b"
      = JVal.vnum 2 := by
  have h := stateMerge_eval (show stateMergeF 5 (JVal.vobj 0 [("a", JVal.vnum 1)] [])
      (JVal.vobj 9 [] [("b", JVal.vnum 2)]) none false
      = some (.ok (JVal.vobj 0 [("a", JVal.vnum 1), ("b", JVal.vnum 2)] []))
      from rfl)
  have h2 := stateMerge_inherited_keys.2 0 9 [("a", JVal.vnum 1)] []
    [("b", JVal.vnum 2)] false _ (by simp) ?_ h ("b", JVal.vnum 2) (by simp)
  · exact h2
  · intro p hp
    rw [List.mem_singleton] at hp
    subst hp
    exact ⟨rfl, by simp⟩

/-- C1: when the source value at key `k` is a plain object and the
destination already has an own property `k`, the merge recurses into the
destination sub-value and merges key by key: keys of the sub-value absent
from the source object keep their old values (the sub-object is not
replaced wholesale), while source keys holding leaf values are written
into the sub-value. -/
theorem stateMerge_deep_merge {state vk s2 : JVal} {k : String} {ign : Bool}
    (h : stateMerge state vk (some k) ign = .ok s2)
    (hplain : isPlainObject vk = true)
    (hown : hasOwnE state k = .ok true) :
    (∀ q, q ∉ enumKeys vk → jGet (jGet s2 k) q = jGet (jGet state k) q) ∧
    (∀ q, q ∈ enumKeys vk → isPlainObject (jGet vk q) = false →
      (ign = true → jGet vk q ≠ .vnull) →
      jGet (jGet s2 k) q = jGet vk q) := by
  cases vk
  case vobj oid own inh =>
    rw [stateMerge_obj_some] at h
    split at h
    · next e heq =>
        rw [hown] at heq
        exact absurd heq (by simp)
    · split at h
      · exact absurd h (by simp)
      · next o2 hL =>
          simp only [Except.ok.injEq] at h
          subst h
          have hOwnB : hasOwnB state k = true := hasOwnE_ok hown
          rw [writeOwn_jGet_self o2 hOwnB]
          constructor
          · intro q hq
            exact mergeLoop_frame hL hq
          · intro q hq hnp hnn
            obtain ⟨a, b, hab, hnb⟩ := exists_last_split hq
            have hab2 : enumKeysL own inh = a ++ q :: b := hab
            rw [hab2] at hL
            exact mergeLoop_set_last hL hnb hnp hnn
    · next heq =>
        rw [hown] at heq
        exact absurd heq (by simp)
  all_goals simp [isPlainObject] at hplain

/-- Witness for C1: merging `{x: 9}` under the existing key "k" of
`{k: {x: 1, y: 2}}` updates `x` and keeps the absent key `y`. -/
theorem stateMerge_deep_merge_witness :
    jGet (jGet (JVal.vobj 0 [("k", JVal.vobj 1 [("x", JVal.vnum 9), ("y", JVal.vnum 2)] [])] []) "k") "y"
      = jGet (jGet (JVal.vobj 0 [("k", JVal.vobj 1 [("x", JVal.vnum 1), ("y", JVal.vnum 2)] [])] []) "k") "y"
    ∧ jGet (jGet (JVal.vobj 0 [("k", JVal.vobj 1 [("x", JVal.vnum 9), ("y", JVal.vnum 2)] [])] []) "k") "x"
      = JVal.vnum 9 := by
  have h := stateMerge_eval (show stateMergeF 6
      (JVal.vobj 0 [("k", JVal.vobj 1 [("x", JVal.vnum 1), ("y", JVal.vnum 2)] [])] [])
      (JVal.vobj 2 [("x", JVal.vnum 9)] []) (some "k") false
      = some (.ok (JVal.vobj 0
        [("k", JVal.vobj 1 [("x", JVal.vnum 9), ("y", JVal.vnum 2)] [])] []))
      from rfl)
  have h2 := stateMerge_deep_merge h rfl rfl
  exact ⟨h2.1 "y" (by decide), h2.2 "x" (by decide) rfl (by simp)⟩

/-- Source values whose plain objects carry no inherited enumerable
properties and no duplicate keys: the shape of every object built from a
JavaScript object literal or parsed JSON payload. -/
inductive WfSrc : JVal → Prop where
  | leaf : ∀ v, isPlainObject v = false → WfSrc v
  | obj : ∀ (id : Nat) (own : List (String × JVal)),
      (own.map Prod.fst).Nodup → (∀ p ∈ own, WfSrc p.2) →
      WfSrc (.vobj id own [])

theorem isPlainObject_iff {w : JVal} :
    isPlainObject w = true ↔ ∃ i own inh, w = .vobj i own inh := by
  cases w <;> simp [isPlainObject]

theorem lookupStr_mem {l : List (String × JVal)} {k : String} {v : JVal}
    (h : lookupStr l k = some v) : (k, v) ∈ l := by
  induction l with
  | nil => simp [lookupStr] at h
  | cons p rest ih =>
      obtain ⟨k1, v1⟩ := p
      by_cases h1 : k1 = k
      · subst h1
        simp [lookupStr] at h
        subst h
        exact List.mem_cons_self _ _
      · simp [lookupStr, h1] at h
        exact List.mem_cons_of_mem _ (ih h)

theorem hasOwnE_of_hasOwnB {o : JVal} {k : String}
    (h : hasOwnB o k = true) : hasOwnE o k = .ok true := by
  cases o with
  | vnull => simp [hasOwnB] at h
  | vundefined => simp [hasOwnB] at h
  | vnum n => simp [hasOwnB] at h
  | vstr s => simp [hasOwnB] at h
  | vbool b => simp [hasOwnB] at h
  | vbuiltin i => simp [hasOwnB] at h
  | varr i e pr =>
      rw [show hasOwnE (JVal.varr i e pr) k
        = .ok (hasOwnB (JVal.varr i e pr) k) from rfl, h]
  | vobj i ow ih =>
      rw [show hasOwnE (JVal.vobj i ow ih) k
        = .ok (hasOwnB (JVal.vobj i ow ih) k) from rfl, h]

theorem enumKeysL_nil_inh (own : List (String × JVal)) :
    enumKeysL own [] = own.map Prod.fst := by
  simp [enumKeysL]

theorem setOwn_setOwn (l : List (String × JVal)) (k : String) (v : JVal) :
    setOwn (setOwn l k v) k v = setOwn l k v := by
  induction l with
  | nil => simp [setOwn]
  | cons p rest ih =>
      obtain ⟨k1, v1⟩ := p
      by_cases h1 : k1 = k
      · simp [setOwn, h1]
      · simp [setOwn, h1, ih]

theorem setElem_setElem : ∀ (l : List JVal) (i : Nat) (v : JVal),
    setElem (setElem l i v) i v = setElem l i v
  | [], 0, _ => rfl
  | [], n + 1, v => by simp [setElem, setElem_setElem [] n v]
  | _ :: _, 0, _ => rfl
  | _ :: rest, n + 1, v => by simp [setElem, setElem_setElem rest n v]

theorem vueSet_idem {s s1 v : JVal} {p : Option String}
    (h : vueSet s p v = .ok s1) : vueSet s1 p v = .ok s1 := by
  cases s with
  | vobj id own inh =>
      simp [vueSet] at h
      subst h
      simp [vueSet, setOwn_setOwn]
  | varr id elems props =>
      simp [vueSet] at h
      cases hi : isIdx (keyStr p) with
      | some i =>
          rw [hi] at h
          simp at h
          subst h
          simp [vueSet, hi, setElem_setElem]
      | none =>
          rw [hi] at h
          simp at h
          subst h
          simp [vueSet, hi, setOwn_setOwn]
  | vnull => simp [vueSet] at h
  | vundefined => simp [vueSet] at h
  | vnum n => simp [vueSet] at h
  | vstr str => simp [vueSet] at h
  | vbool b => simp [vueSet] at h
  | vbuiltin id => simp [vueSet] at h

theorem setElem_eq_self {l : List JVal} {i : Nat} {w : JVal}
    (hlen : i < l.length) (hget : l.getD i .vundefined = w) :
    setElem l i w = l := by
  subst hget
  exact setElem_getD_cancel l i hlen

theorem vueSet_cancel {o1 w : JVal} {k : String} (hj : jGet o1 k = w)
    (ho : hasOwnB o1 k = true) : vueSet o1 (some k) w = .ok o1 := by
  cases o1 with
  | vobj id own inh =>
      simp [hasOwnB] at ho
      obtain ⟨v, hv⟩ := Option.isSome_iff_exists.mp ho
      simp [jGet, objGet, hv] at hj
      subst hj
      simp [vueSet, keyStr, setOwn_lookup_self hv]
  | varr id elems props =>
      cases hi : isIdx k with
      | some i =>
          simp [hasOwnB, hi] at ho
          simp [jGet, hi, List.getD] at hj
          simp [vueSet, keyStr, hi]
          exact setElem_eq_self ho (by simpa [List.getD] using hj)
      | none =>
          simp [hasOwnB, hi] at ho
          obtain ⟨v, hv⟩ := Option.isSome_iff_exists.mp ho
          simp [jGet, hi, hv] at hj
          subst hj
          simp [vueSet, keyStr, hi, setOwn_lookup_self hv]
  | vnull => simp [hasOwnB] at ho
  | vundefined => simp [hasOwnB] at ho
  | vnum n => simp [hasOwnB] at ho
  | vstr str => simp [hasOwnB] at ho
  | vbool b => simp [hasOwnB] at ho
  | vbuiltin id => simp [hasOwnB] at ho

theorem stateMerge_leaf_idem {s s1 v : JVal} {p : Option String} {ign : Bool}
    (hnp : isPlainObject v = false)
    (h : stateMerge s v p ign = .ok s1) : stateMerge s1 v p ign = .ok s1 := by
  rw [stateMerge_leaf s v p ign hnp] at h
  rw [stateMerge_leaf s1 v p ign hnp]
  unfold leafWrite at h ⊢
  split at h
  · next hc =>
      rw [if_pos hc]
  · next hc =>
      rw [if_neg hc]
      exact vueSet_idem h

theorem stateMerge_idem_aux : ∀ (n : Nat) (v : JVal), sizeOf v ≤ n → WfSrc v →
    (∀ (s s1 : JVal) (p : Option String) (ign : Bool),
      stateMerge s v p ign = .ok s1 → stateMerge s1 v p ign = .ok s1) ∧
    (∀ ign : Bool, isPlainObject v = true → stateMerge v v none ign = .ok v) := by
  intro n
  induction n with
  | zero =>
      intro v hv
      exact absurd hv (by cases v <;> simp)
  | succ n ih =>
      intro v hv hwf
      by_cases hplain : isPlainObject v = true
      · obtain ⟨oid, own, inh, rfl⟩ := isPlainObject_iff.mp hplain
        cases hwf with
        | leaf _ hl => simp [isPlainObject] at hl
        | obj _ _ hnd hch =>
        have hchild : ∀ k ∈ own.map Prod.fst,
            WfSrc (objGet own [] k) ∧ sizeOf (objGet own [] k) ≤ n := by
          intro k hk
          obtain ⟨w, hw⟩ := Option.isSome_iff_exists.mp (lookupStr_isSome_iff.mpr hk)
          have hmem := lookupStr_mem hw
          have hwfw := hch (k, w) hmem
          have hog : objGet own [] k = w := by simp [objGet, hw]
          rw [hog]
          refine ⟨hwfw, ?_⟩
          have h1 := sizeOf_objGet_lt own [] k
          rw [hog] at h1
          have h2 : sizeOf (JVal.vobj oid own ([] : List (String × JVal)))
              = 1 + sizeOf oid + sizeOf own + sizeOf ([] : List (String × JVal)) := by
            simp
          have hnil : sizeOf ([] : List (String × JVal)) = 1 := rfl
          omega
        have hP : ∀ (ign : Bool) (k : String), k ∈ own.map Prod.fst →
            ∀ (o o2 o1 : JVal),
              stateMerge o (objGet own [] k) (some k) ign = .ok o2 →
              jGet o1 k = jGet o2 k →
              (hasOwnB o2 k = true → hasOwnB o1 k = true) →
              stateMerge o1 (objGet own [] k) (some k) ign = .ok o1 := by
          intro ign k hk o o2 o1 hstep hframe hmono
          obtain ⟨hwfk, hszk⟩ := hchild k hk
          by_cases hpk : isPlainObject (objGet own [] k) = true
          · obtain ⟨wid, wown, winh, hwk⟩ := isPlainObject_iff.mp hpk
            have hwinh : winh = [] := by
              rw [hwk] at hwfk
              cases hwfk with
              | leaf _ hl => simp [isPlainObject] at hl
              | obj => rfl
            subst hwinh
            rw [hwk] at hstep ⊢
            rw [stateMerge_obj_some] at hstep
            split at hstep
            · exact absurd hstep (by simp)
            · next hEo =>
                split at hstep
                · exact absurd hstep (by simp)
                · next u hLu =>
                    simp only [Except.ok.injEq] at hstep
                    have hBo : hasOwnB o k = true := hasOwnE_ok hEo
                    have hj2 : jGet o2 k = u := by
                      rw [← hstep]
                      exact writeOwn_jGet_self u hBo
                    have hB2 : hasOwnB o2 k = true := by
                      rw [← hstep]
                      exact hasOwnB_writeOwn_mono hBo
                    have hB1 : hasOwnB o1 k = true := hmono hB2
                    have hj1 : jGet o1 k = u := by rw [hframe, hj2]
                    rw [stateMerge_obj_some, hasOwnE_of_hasOwnB hB1]
                    have hSu := (ih (JVal.vobj wid wown [])
                      (by rwa [hwk] at hszk) (by rwa [hwk] at hwfk)).1
                    have hfirst : stateMerge (jGet o k) (JVal.vobj wid wown [])
                        none ign = .ok u := by
                      rw [stateMerge_obj_none]
                      exact hLu
                    have hsecond := hSu (jGet o k) u none ign hfirst
                    rw [stateMerge_obj_none] at hsecond
                    rw [hj1, hsecond]
                    show Except.ok (writeOwn o1 k u) = Except.ok o1
                    rw [show writeOwn o1 k u = o1 from by
                      rw [← hj1]
                      exact writeOwn_jGet_cancel hB1]
            · next hEo =>
                have hv2 : vueSet o (some k) (JVal.vobj wid wown []) = .ok o2 := by
                  unfold leafWrite at hstep
                  rw [if_neg (by simp [isVNull])] at hstep
                  exact hstep
                have hj2 : jGet o2 k = JVal.vobj wid wown [] := vueSet_ok_jGet_self hv2
                have hB2 : hasOwnB o2 k = true := hasOwnB_vueSet_self hv2
                have hB1 := hmono hB2
                have hj1 : jGet o1 k = JVal.vobj wid wown [] := by rw [hframe, hj2]
                rw [stateMerge_obj_some, hasOwnE_of_hasOwnB hB1]
                have hTu := (ih (JVal.vobj wid wown [])
                  (by rwa [hwk] at hszk) (by rwa [hwk] at hwfk)).2 ign rfl
                rw [stateMerge_obj_none] at hTu
                rw [hj1, hTu]
                show Except.ok (writeOwn o1 k (JVal.vobj wid wown [])) = Except.ok o1
                rw [show writeOwn o1 k (JVal.vobj wid wown []) = o1 from by
                  rw [← hj1]
                  exact writeOwn_jGet_cancel hB1]
          · have hpk2 : isPlainObject (objGet own [] k) = false := by simpa using hpk
            rw [stateMerge_leaf o _ (some k) ign hpk2] at hstep
            rw [stateMerge_leaf o1 _ (some k) ign hpk2]
            unfold leafWrite at hstep ⊢
            split at hstep
            · next hc => rw [if_pos hc]
            · next hc =>
                rw [if_neg hc]
                have hj2 : jGet o2 k = objGet own [] k := vueSet_ok_jGet_self hstep
                have hB2 : hasOwnB o2 k = true := hasOwnB_vueSet_self hstep
                exact vueSet_cancel (by rw [hframe, hj2]) (hmono hB2)
        have hloop : ∀ (ign : Bool) (keys : List String), keys.Nodup →
            (∀ k ∈ keys, k ∈ own.map Prod.fst) →
            ∀ (o o1 : JVal), mergeLoop o own [] keys ign = .ok o1 →
              mergeLoop o1 own [] keys ign = .ok o1 := by
          intro ign keys
          induction keys with
          | nil =>
              intro _ _ o o1 h
              rw [mergeLoop_nil] at h
              cases h
              exact mergeLoop_nil _ _ _ _
          | cons k rest ihk =>
              intro hnd2 hsub o o1 h
              rw [mergeLoop_cons] at h
              split at h
              · exact absurd h (by simp)
              · next o2 hstep =>
                  rw [List.nodup_cons] at hnd2
                  have hframe : jGet o1 k = jGet o2 k := mergeLoop_frame h hnd2.1
                  have hmono : hasOwnB o2 k = true → hasOwnB o1 k = true :=
                    fun hh => mergeLoop_hasOwn_mono h hh
                  have hsecond := hP ign k (hsub k (List.mem_cons_self k rest))
                    o o2 o1 hstep hframe hmono
                  rw [mergeLoop_cons, hsecond]
                  exact ihk hnd2.2 (fun q hq => hsub q (List.mem_cons_of_mem k hq))
                    o2 o1 h
        have hselfstep : ∀ (ign : Bool) (k : String), k ∈ own.map Prod.fst →
            stateMerge (JVal.vobj oid own []) (objGet own [] k) (some k) ign
              = .ok (JVal.vobj oid own []) := by
          intro ign k hk
          obtain ⟨hwfk, hszk⟩ := hchild k hk
          have hBk : hasOwnB (JVal.vobj oid own []) k = true := by
            simp [hasOwnB]
            exact lookupStr_isSome_iff.mpr hk
          have hjk : jGet (JVal.vobj oid own []) k = objGet own [] k := rfl
          by_cases hpk : isPlainObject (objGet own [] k) = true
          · obtain ⟨wid, wown, winh, hwk⟩ := isPlainObject_iff.mp hpk
            have hwinh : winh = [] := by
              rw [hwk] at hwfk
              cases hwfk with
              | leaf _ hl => simp [isPlainObject] at hl
              | obj => rfl
            subst hwinh
            rw [hwk, stateMerge_obj_some, hasOwnE_of_hasOwnB hBk]
            have hTu := (ih (JVal.vobj wid wown [])
              (by rwa [hwk] at hszk) (by rwa [hwk] at hwfk)).2 ign rfl
            rw [stateMerge_obj_none] at hTu
            rw [show jGet (JVal.vobj oid own []) k = JVal.vobj wid wown [] from by
              rw [hjk, hwk]]
            rw [hTu]
            show Except.ok (writeOwn (JVal.vobj oid own []) k (JVal.vobj wid wown []))
              = Except.ok (JVal.vobj oid own [])
            rw [show writeOwn (JVal.vobj oid own []) k (JVal.vobj wid wown [])
                = JVal.vobj oid own [] from by
              rw [← hwk, ← hjk]
              exact writeOwn_jGet_cancel hBk]
          · have hpk2 : isPlainObject (objGet own [] k) = false := by simpa using hpk
            rw [stateMerge_leaf _ _ (some k) ign hpk2]
            unfold leafWrite
            split
            · rfl
            · exact vueSet_cancel hjk hBk
        have hselfloop : ∀ (ign : Bool) (keys : List String),
            (∀ k ∈ keys, k ∈ own.map Prod.fst) →
            mergeLoop (JVal.vobj oid own []) own [] keys ign
              = .ok (JVal.vobj oid own []) := by
          intro ign keys
          induction keys with
          | nil => intro _; exact mergeLoop_nil _ _ _ _
          | cons k rest ihk =>
              intro hsub
              rw [mergeLoop_cons, hselfstep ign k (hsub k (List.mem_cons_self k rest))]
              exact ihk (fun q hq => hsub q (List.mem_cons_of_mem k hq))
        constructor
        · intro s s1 p ign h
          cases p with
          | none =>
              rw [stateMerge_obj_none] at h ⊢
              exact hloop ign (enumKeysL own [])
                (by rw [enumKeysL_nil_inh]; exact hnd)
                (by rw [enumKeysL_nil_inh]; exact fun k hk => hk) s s1 h
          | some k =>
              rw [stateMerge_obj_some] at h
              split at h
              · exact absurd h (by simp)
              · next hEs =>
                  split at h
                  · exact absurd h (by simp)
                  · next u hLu =>
                      simp only [Except.ok.injEq] at h
                      have hBs : hasOwnB s k = true := hasOwnE_ok hEs
                      have hj1 : jGet s1 k = u := by
                        rw [← h]
                        exact writeOwn_jGet_self u hBs
                      have hB1 : hasOwnB s1 k = true := by
                        rw [← h]
                        exact hasOwnB_writeOwn_mono hBs
                      rw [stateMerge_obj_some, hasOwnE_of_hasOwnB hB1]
                      have hLu2 := hloop ign (enumKeysL own [])
                        (by rw [enumKeysL_nil_inh]; exact hnd)
                        (by rw [enumKeysL_nil_inh]; exact fun k2 hk2 => hk2)
                        (jGet s k) u hLu
                      rw [hj1, hLu2]
                      show Except.ok (writeOwn s1 k u) = Except.ok s1
                      rw [show writeOwn s1 k u = s1 from by
                        rw [← hj1]
                        exact writeOwn_jGet_cancel hB1]
              · next hEs =>
                  have hv2 : vueSet s (some k) (JVal.vobj oid own []) = .ok s1 := by
                    unfold leafWrite at h
                    rw [if_neg (by simp [isVNull])] at h
                    exact h
                  have hj1 : jGet s1 k = JVal.vobj oid own [] := vueSet_ok_jGet_self hv2
                  have hB1 : hasOwnB s1 k = true := hasOwnB_vueSet_self hv2
                  rw [stateMerge_obj_some, hasOwnE_of_hasOwnB hB1]
                  rw [hj1, hselfloop ign (enumKeysL own [])
                    (by rw [enumKeysL_nil_inh]; exact fun k2 hk2 => hk2)]
                  show Except.ok (writeOwn s1 k (JVal.vobj oid own [])) = Except.ok s1
                  rw [show writeOwn s1 k (JVal.vobj oid own []) = s1 from by
                    rw [← hj1]
                    exact writeOwn_jGet_cancel hB1]
        · intro ign _
          rw [stateMerge_obj_none]
          exact hselfloop ign (enumKeysL own [])
            (by rw [enumKeysL_nil_inh]; exact fun k hk => hk)
      · constructor
        · intro s s1 p ign h
          exact stateMerge_leaf_idem (by simpa using hplain) h
        · intro ign hpl
          exact absurd hpl hplain

/-- C6 counterexample: merging twice is not always the same as merging
once.  The source `{a: o}` carries a nested object `o` (identity tag 12)
whose only enumerable key `b` is inherited.  The first merge installs `o`
wholesale; the second merge recurses into it and materialises an own copy
of the inherited key `b`, so the final states differ (the sub-object of
the once-merged state has no own property `b`, the twice-merged one
does). -/
theorem stateMerge_idem_counterexample :
    stateMerge (JVal.vobj 10 [] [])
        (JVal.vobj 11 [("a", JVal.vobj 12 [] [("b", JVal.vnum 1)])] []) none false
      = .ok (JVal.vobj 10 [("a", JVal.vobj 12 [] [("b", JVal.vnum 1)])] []) ∧
    stateMerge (JVal.vobj 10 [("a", JVal.vobj 12 [] [("b", JVal.vnum 1)])] [])
        (JVal.vobj 11 [("a", JVal.vobj 12 [] [("b", JVal.vnum 1)])] []) none false
      = .ok (JVal.vobj 10
          [("a", JVal.vobj 12 [("b", JVal.vnum 1)] [("b", JVal.vnum 1)])] []) ∧
    JVal.vobj 10 [("a", JVal.vobj 12 [("b", JVal.vnum 1)] [("b", JVal.vnum 1)])] []
      ≠ JVal.vobj 10 [("a", JVal.vobj 12 [] [("b", JVal.vnum 1)])] [] := by
  refine ⟨?_, ?_, ?_⟩
  · exact stateMerge_eval (show stateMergeF 6 (JVal.vobj 10 [] [])
      (JVal.vobj 11 [("a", JVal.vobj 12 [] [("b", JVal.vnum 1)])] []) none false
      = some (.ok (JVal.vobj 10 [("a", JVal.vobj 12 [] [("b", JVal.vnum 1)])] []))
      from rfl)
  · exact stateMerge_eval (show stateMergeF 6
      (JVal.vobj 10 [("a", JVal.vobj 12 [] [("b", JVal.vnum 1)])] [])
      (JVal.vobj 11 [("a", JVal.vobj 12 [] [("b", JVal.vnum 1)])] []) none false
      = some (.ok (JVal.vobj 10
        [("a", JVal.vobj 12 [("b", JVal.vnum 1)] [("b", JVal.vnum 1)])] []))
      from rfl)
  · simp

/-- C6 amended: merging is idempotent for every source value whose
nested plain objects carry no inherited enumerable properties (the shape
of every object literal or JSON payload): if a merge of such a value
returns successfully, merging the same value again leaves the state
unchanged, for every destination, propertyName, and
suppressNullOverwrite flag. -/
theorem stateMerge_idem {s s1 v : JVal} {p : Option String} {ign : Bool}
    (h : stateMerge s v p ign = .ok s1) (hwf : WfSrc v) :
    stateMerge s1 v p ign = .ok s1 :=
  (stateMerge_idem_aux (sizeOf v) v le_rfl hwf).1 s s1 p ign h

/-- Witness for C6 at `state = {}`, `value = {a: {b: 2}}`: the second
merge reproduces the state of the first. -/
theorem stateMerge_idem_witness :
    stateMerge (JVal.vobj 0 [("a", JVal.vobj 5 [("b", JVal.vnum 2)] [])] [])
        (JVal.vobj 1 [("a", JVal.vobj 5 [("b", JVal.vnum 2)] [])] []) none false
      = .ok (JVal.vobj 0 [("a", JVal.vobj 5 [("b", JVal.vnum 2)] [])] []) := by
  have h1 := stateMerge_eval (show stateMergeF 6 (JVal.vobj 0 [] [])
      (JVal.vobj 1 [("a", JVal.vobj 5 [("b", JVal.vnum 2)] [])] []) none false
      = some (.ok (JVal.vobj 0 [("a", JVal.vobj 5 [("b", JVal.vnum 2)] [])] []))
      from rfl)
  refine stateMerge_idem h1 ?_
  refine WfSrc.obj 1 [("a", JVal.vobj 5 [("b", JVal.vnum 2)] [])] (by simp) ?_
  intro q hq
  rw [List.mem_singleton] at hq
  subst hq
  refine WfSrc.obj 5 [("b", JVal.vnum 2)] (by simp) ?_
  intro r hr
  rw [List.mem_singleton] at hr
  subst hr
  exact WfSrc.leaf _ rfl

/-- A source value nested `d` plain-object levels deep, matched by a
destination of the same shape, used to show that the depth budget of the
merge recursion is attained. -/
def chain : Nat → JVal
  | 0 => .vnum 0
  | d + 1 => .vobj 0 [("a", chain d)] []

theorem chain_fuel_exhausted : ∀ d : Nat,
    stateMergeF d (chain (d + 1)) (chain d) (some "a") false = none := by
  intro d
  induction d with
  | zero => rfl
  | succ d ih =>
      have h1 : chain (d + 1) = .vobj 0 [("a", chain d)] [] := rfl
      have h2 : chain (d + 2) = .vobj 0 [("a", chain (d + 1))] [] := rfl
      rw [h1, stateMergeF_obj_some]
      have hE : hasOwnE (chain (d + 2)) "a" = .ok true := by
        rw [h2]
        simp [hasOwnE, hasOwnB, lookupStr]
      rw [hE]
      have hkeys : enumKeysL [("a", chain d)] ([] : List (String × JVal))
          = ["a"] := by
        simp [enumKeysL]
      rw [hkeys]
      have hjget : jGet (chain (d + 2)) "a" = chain (d + 1) := by
        rw [h2]
        simp [jGet, objGet, lookupStr]
      rw [hjget]
      have hog : objGet [("a", chain d)] [] "a" = chain d := by
        simp [objGet, lookupStr]
      unfold runLoop
      rw [hog, ih]

theorem chain_needs_full_depth : ∀ d : Nat,
    stateMergeF d (chain d) (chain d) none false = none := by
  intro d
  cases d with
  | zero => rfl
  | succ d =>
      have h1 : chain (d + 1) = .vobj 0 [("a", chain d)] [] := rfl
      conv_lhs => rw [h1]
      rw [stateMergeF_obj_none]
      have hkeys : enumKeysL [("a", chain d)] ([] : List (String × JVal))
          = ["a"] := by
        simp [enumKeysL]
      rw [hkeys]
      unfold runLoop
      have hog : objGet [("a", chain d)] [] "a" = chain d := by
        simp [objGet, lookupStr]
      rw [hog, ← h1, chain_fuel_exhausted d]

/-- C9: the merge terminates on every source value — `stateMerge` is a
total function, and running it with a stack budget of the source value
nesting depth plus one frame already reproduces its result — and the
bound is exact: for every depth `d`, the depth-`d` chain source merged
into a matching destination exhausts a budget of only `d` frames. -/
theorem stateMerge_terminates_at_depth :
    (∀ (s v : JVal) (p : Option String) (ign : Bool),
      stateMergeF (jdepth v + 1) s v p ign = some (stateMerge s v p ign)) ∧
    (∀ d : Nat, stateMergeF d (chain d) (chain d) none false = none) :=
  ⟨fun s v p ign => stateMergeF_spec v (jdepth v + 1) le_rfl s p ign,
   chain_needs_full_depth⟩

/-- C8 counterexample: the claim says only the missing-propertyName case
can fail and all type mismatches are handled without error.  But with
`state = {a: null}` and `value = {a: {b: {c: 1}}}` — a plain-object
source over a null destination value — the recursion reaches
`stateMerge(null, {c: 1}, "b")`, whose guard calls
`null.hasOwnProperty("b")` and throws a TypeError. -/
theorem stateMerge_mismatch_error_counterexample :
    stateMerge (JVal.vobj 0 [("a", JVal.vnull)] [])
        (JVal.vobj 1 [("a", JVal.vobj 2
          [("b", JVal.vobj 3 [("c", JVal.vnum 1)] [])] [])] []) none false
      = .error "TypeError" :=
  stateMerge_eval (show stateMergeF 9 (JVal.vobj 0 [("a", JVal.vnull)] [])
    (JVal.vobj 1 [("a", JVal.vobj 2
      [("b", JVal.vobj 3 [("c", JVal.vnum 1)] [])] [])] []) none false
    = some (.error "TypeError") from rfl)

/-- C8 amended: every non-plain-object source value (undefined, null,
primitives, arrays of any length, builtin composites) assigned at a key
of a plain-object destination follows the overwrite policy and never
raises, whatever the previous type of the destination value at that key;
errors arise only when a plain-object source forces recursion into a
destination value that is null, undefined, or a primitive. -/
theorem stateMerge_leaf_inputs_no_error (v : JVal) (sid : Nat)
    (sown sinh : List (String × JVal)) (k : String) (ign : Bool)
    (hnp : isPlainObject v = false) :
    stateMerge (.vobj sid sown sinh) v (some k) ign
      = .ok (if ign && isVNull v then .vobj sid sown sinh
             else .vobj sid (setOwn sown k v) sinh) := by
  rw [stateMerge_leaf _ v (some k) ign hnp]
  unfold leafWrite
  cases hc : (ign && isVNull v)
  · simp [vueSet, keyStr]
  · simp

/-- Witness for C8 amended: an undefined source value over an existing
numeric destination value overwrites it without error. -/
theorem stateMerge_leaf_inputs_no_error_witness :
    stateMerge (JVal.vobj 0 [("x", JVal.vnum 1)] []) JVal.vundefined (some "x") false
      = .ok (JVal.vobj 0 [("x", JVal.vundefined)] []) := by
  have h := stateMerge_leaf_inputs_no_error JVal.vundefined 0 [("x", JVal.vnum 1)]
    [] "x" false rfl
  simpa [isVNull, setOwn] using h


/-- Value of `state` at a key path: iterated property read. -/
def jGetPath : JVal → List String → JVal
  | v, [] => v
  | v, k :: rest => jGetPath (jGet v k) rest

/-- The merge recurses along the path: the value itself and the value at
every proper prefix of the path are plain objects. -/
def plainAlongB : JVal → List String → Bool
  | v, [] => isPlainObject v
  | v, k :: rest => isPlainObject v && plainAlongB (jGet v k) rest

/-- Destinations without inherited enumerable properties anywhere: the
shape of any state tree built from object and array literals. -/
inductive NoInh : JVal → Prop where
  | vnull : NoInh .vnull
  | vundefined : NoInh .vundefined
  | vnum : ∀ n, NoInh (.vnum n)
  | vstr : ∀ s, NoInh (.vstr s)
  | vbool : ∀ b, NoInh (.vbool b)
  | vbuiltin : ∀ i, NoInh (.vbuiltin i)
  | varr : ∀ i elems props, (∀ e ∈ elems, NoInh e) →
      (∀ p ∈ props, NoInh p.2) → NoInh (.varr i elems props)
  | vobj : ∀ i own, (∀ p ∈ own, NoInh p.2) → NoInh (.vobj i own [])

/-- Source values with duplicate-free key lists at every plain-object
level (own and inherited alike); what any real JavaScript object
satisfies. -/
inductive WfKeys : JVal → Prop where
  | leaf : ∀ v, isPlainObject v = false → WfKeys v
  | obj : ∀ (i : Nat) (own inh : List (String × JVal)),
      (own.map Prod.fst).Nodup → (inh.map Prod.fst).Nodup →
      (∀ p ∈ own, WfKeys p.2) → (∀ p ∈ inh, WfKeys p.2) →
      WfKeys (.vobj i own inh)

theorem jGetPath_append_singleton (v : JVal) (pi2 : List String) (k : String) :
    jGetPath v (pi2 ++ [k]) = jGet (jGetPath v pi2) k := by
  induction pi2 generalizing v with
  | nil => rfl
  | cons m rest ih => exact ih (jGet v m)

theorem jGetPath_vundef : ∀ (p : List String), jGetPath .vundefined p = .vundefined
  | [] => rfl
  | _ :: rest => jGetPath_vundef rest

theorem getD_mem_or_default (l : List JVal) (i : Nat) :
    l.getD i .vundefined = .vundefined ∨ l.getD i .vundefined ∈ l := by
  by_cases h : i < l.length
  · right
    rw [List.getD_eq_getElem l _ h]
    exact List.getElem_mem h
  · left
    rw [List.getD_eq_default]
    omega

theorem noInh_jGet {s : JVal} (h : NoInh s) (k : String) : NoInh (jGet s k) := by
  cases h with
  | vnull => exact NoInh.vundefined
  | vundefined => exact NoInh.vundefined
  | vnum n => exact NoInh.vundefined
  | vstr str => exact NoInh.vundefined
  | vbool b => exact NoInh.vundefined
  | vbuiltin i => exact NoInh.vundefined
  | varr i elems props he hp =>
      simp only [jGet]
      cases isIdx k with
      | some j =>
          show NoInh (elems.getD j .vundefined)
          rcases getD_mem_or_default elems j with h1 | h1
          · rw [h1]; exact NoInh.vundefined
          · exact he _ h1
      | none =>
          show NoInh ((lookupStr props k).getD .vundefined)
          cases hl : lookupStr props k with
          | none => exact NoInh.vundefined
          | some w => exact hp _ (lookupStr_mem hl)
  | vobj i own hch =>
      simp only [jGet, objGet]
      cases hl : lookupStr own k with
      | some w => exact hch _ (lookupStr_mem hl)
      | none =>
          show NoInh ((lookupStr ([] : List (String × JVal)) k).getD .vundefined)
          exact NoInh.vundefined

theorem jGet_eq_vundef_of_not_hasOwn {s : JVal} {k : String} (hni : NoInh s)
    (h : hasOwnB s k = false) : jGet s k = .vundefined := by
  cases hni with
  | vnull => rfl
  | vundefined => rfl
  | vnum n => rfl
  | vstr str => rfl
  | vbool b => rfl
  | vbuiltin i => rfl
  | varr i elems props he hp =>
      simp only [jGet]
      simp only [hasOwnB] at h
      cases hi : isIdx k with
      | some j =>
          rw [hi] at h
          simp at h
          show elems.getD j .vundefined = .vundefined
          rw [List.getD_eq_default]
          omega
      | none =>
          rw [hi] at h
          show (lookupStr props k).getD .vundefined = .vundefined
          cases hl : lookupStr props k with
          | none => rfl
          | some w =>
              rw [hl] at h
              simp at h
  | vobj i own hch =>
      simp only [jGet, objGet]
      simp only [hasOwnB] at h
      cases hl : lookupStr own k with
      | some w =>
          rw [hl] at h
          simp at h
      | none => rfl

theorem wfKeys_objGet {i : Nat} {own inh : List (String × JVal)}
    (h : WfKeys (.vobj i own inh)) (k : String) : WfKeys (objGet own inh k) := by
  cases h with
  | leaf _ hl => simp [isPlainObject] at hl
  | obj _ _ _ _ _ hco hci =>
      unfold objGet
      cases hl : lookupStr own k with
      | some w => exact hco _ (lookupStr_mem hl)
      | none =>
          cases hl2 : lookupStr inh k with
          | some w => exact hci _ (lookupStr_mem hl2)
          | none => exact WfKeys.leaf _ rfl

theorem enumKeysL_nodup {own inh : List (String × JVal)}
    (ho : (own.map Prod.fst).Nodup) (hi : (inh.map Prod.fst).Nodup) :
    (enumKeysL own inh).Nodup := by
  unfold enumKeysL
  rw [List.nodup_append]
  refine ⟨ho, hi.filter _, ?_⟩
  intro a ha hb
  rw [List.mem_filter] at hb
  have hnm : a ∉ own.map Prod.fst := by simpa using hb.2
  exact hnm ha

theorem mem_enumKeysL_of_plain {own inh : List (String × JVal)} {m : String}
    (h : isPlainObject (objGet own inh m) = true) : m ∈ enumKeysL own inh := by
  by_contra hm
  rw [not_mem_enumKeysL_objGet hm] at h
  simp [isPlainObject] at h

theorem nodup_split_unique {m : String} {l : List String} (hnd : l.Nodup)
    (hm : m ∈ l) : ∃ a b, l = a ++ m :: b ∧ m ∉ a ∧ m ∉ b := by
  obtain ⟨a, b, hab, hnb⟩ := exists_last_split hm
  subst hab
  rw [List.nodup_append] at hnd
  exact ⟨a, b, rfl, fun hma => hnd.2.2 hma (List.mem_cons_self m b), hnb⟩

theorem plainAlongB_head {v : JVal} {p : List String}
    (h : plainAlongB v p = true) : isPlainObject v = true := by
  cases p with
  | nil => exact h
  | cons m rest =>
      simp [plainAlongB] at h
      exact h.1

theorem plainAlongB_last {v : JVal} {p : List String}
    (h : plainAlongB v p = true) : isPlainObject (jGetPath v p) = true := by
  induction p generalizing v with
  | nil => exact h
  | cons m rest ih =>
      simp [plainAlongB] at h
      show isPlainObject (jGetPath (jGet v m) rest) = true
      exact ih h.2

theorem mergeLoop_frame_deep : ∀ (pi2 : List String) (i : Nat)
    (own inh : List (String × JVal)) (k : String) (s s2 : JVal) (ign : Bool),
    mergeLoop s own inh (enumKeysL own inh) ign = .ok s2 →
    WfKeys (.vobj i own inh) → NoInh s →
    plainAlongB (.vobj i own inh) pi2 = true →
    k ∉ enumKeys (jGetPath (.vobj i own inh) pi2) →
    jGetPath s2 (pi2 ++ [k]) = jGetPath s (pi2 ++ [k]) := by
  intro pi2
  induction pi2 with
  | nil =>
      intro i own inh k s s2 ign h _ _ _ hk
      show jGet s2 k = jGet s k
      exact mergeLoop_frame h hk
  | cons m rest ih =>
      intro i own inh k s s2 ign h hwf hni hpa hk
      have hpa2 : plainAlongB (objGet own inh m) rest = true := by
        simp [plainAlongB, isPlainObject, jGet] at hpa
        exact hpa
      have hpm : isPlainObject (objGet own inh m) = true := plainAlongB_head hpa2
      obtain ⟨wid, wown, winh, hwm⟩ := isPlainObject_iff.mp hpm
      have hk2 : k ∉ enumKeys (jGetPath (objGet own inh m) rest) := hk
      rw [hwm] at hpa2 hk2
      have hmem : m ∈ enumKeysL own inh := mem_enumKeysL_of_plain hpm
      have hnd : (enumKeysL own inh).Nodup := by
        cases hwf with
        | leaf _ hl => simp [isPlainObject] at hl
        | obj _ _ _ hno hni2 _ _ => exact enumKeysL_nodup hno hni2
      have hwfm : WfKeys (JVal.vobj wid wown winh) := by
        rw [← hwm]
        exact wfKeys_objGet hwf m
      obtain ⟨a, b, hab, hma, hmb⟩ := nodup_split_unique hnd hmem
      rw [hab, mergeLoop_append] at h
      split at h
      · exact absurd h (by simp)
      · next s1 hseg1 =>
          rw [mergeLoop_cons] at h
          split at h
          · exact absurd h (by simp)
          · next s3 hstep =>
              have hjs1 : jGet s1 m = jGet s m := mergeLoop_frame hseg1 hma
              show jGetPath (jGet s2 m) (rest ++ [k])
                = jGetPath (jGet s m) (rest ++ [k])
              rw [hwm, stateMerge_obj_some] at hstep
              split at hstep
              · exact absurd hstep (by simp)
              · next hEo =>
                  split at hstep
                  · exact absurd hstep (by simp)
                  · next u hLu =>
                      simp only [Except.ok.injEq] at hstep
                      have hB1 : hasOwnB s1 m = true := hasOwnE_ok hEo
                      have hj3 : jGet s3 m = u := by
                        rw [← hstep]
                        exact writeOwn_jGet_self u hB1
                      have hjs2 : jGet s2 m = u := by
                        rw [mergeLoop_frame h hmb, hj3]
                      rw [hjs2, ← hjs1]
                      have hnim : NoInh (jGet s1 m) := by
                        rw [hjs1]
                        exact noInh_jGet hni m
                      exact ih wid wown winh k (jGet s1 m) u ign hLu hwfm hnim
                        hpa2 hk2
              · next hEo =>
                  have hv2 : vueSet s1 (some m) (JVal.vobj wid wown winh)
                      = .ok s3 := by
                    unfold leafWrite at hstep
                    rw [if_neg (by simp [isVNull])] at hstep
                    exact hstep
                  have hj3 : jGet s3 m = JVal.vobj wid wown winh :=
                    vueSet_ok_jGet_self hv2
                  have hjs2 : jGet s2 m = JVal.vobj wid wown winh := by
                    rw [mergeLoop_frame h hmb, hj3]
                  rw [hjs2]
                  have hB1 : hasOwnB s1 m = false := hasOwnE_ok hEo
                  have hBs : hasOwnB s m = false := by
                    cases hBs2 : hasOwnB s m
                    · rfl
                    · rw [mergeLoop_hasOwn_mono hseg1 hBs2] at hB1
                      exact absurd hB1 (by simp)
                  have hjsm : jGet s m = .vundefined :=
                    jGet_eq_vundef_of_not_hasOwn hni hBs
                  rw [hjsm, jGetPath_vundef, jGetPath_append_singleton]
                  obtain ⟨zi, zown, zinh, hz⟩ :=
                    isPlainObject_iff.mp (plainAlongB_last hpa2)
                  rw [hz]
                  rw [hz] at hk2
                  show objGet zown zinh k = .vundefined
                  exact not_mem_enumKeysL_objGet hk2

/-- C4 counterexample: the claim quantifies over keys of the destination
at any depth.  With `state = {a: {x: 1}}` and `value = {a: 5}`, the key
"x" of state (under "a") appears nowhere in the corresponding subtree of
value — value.a is the leaf 5 — yet after the merge `state.a` has been
replaced wholesale by 5 and `state.a.x` no longer holds 1. -/
theorem stateMerge_frame_counterexample :
    stateMerge (JVal.vobj 0 [("a", JVal.vobj 1 [("x", JVal.vnum 1)] [])] [])
        (JVal.vobj 2 [("a", JVal.vnum 5)] []) none false
      = .ok (JVal.vobj 0 [("a", JVal.vnum 5)] []) ∧
    jGetPath (JVal.vobj 0 [("a", JVal.vobj 1 [("x", JVal.vnum 1)] [])] [])
      ["a", "x"] = JVal.vnum 1 ∧
    jGetPath (JVal.vobj 0 [("a", JVal.vnum 5)] []) ["a", "x"] = JVal.vundefined := by
  refine ⟨?_, rfl, rfl⟩
  exact stateMerge_eval (show stateMergeF 5
    (JVal.vobj 0 [("a", JVal.vobj 1 [("x", JVal.vnum 1)] [])] [])
    (JVal.vobj 2 [("a", JVal.vnum 5)] []) none false
    = some (.ok (JVal.vobj 0 [("a", JVal.vnum 5)] [])) from rfl)

/-- C4 amended: the frame property holds for the keys the merge can
reach only by recursing: if the merge of `value` into `state` (no
propertyName) succeeds, `state` carries no inherited enumerable
properties, `value` has duplicate-free key lists, and `value` is a plain
object at every prefix of the path `pi2` (so no prefix of the path is
leaf-assigned), then for every key `k` absent from the keys of
`value` at `pi2`, the destination value at path `pi2.k` is unchanged. -/
theorem stateMerge_frame_disjoint_paths {v s s2 : JVal} {ign : Bool}
    (h : stateMerge s v none ign = .ok s2) (hwf : WfKeys v) (hni : NoInh s)
    {pi2 : List String} {k : String}
    (hpa : plainAlongB v pi2 = true)
    (hk : k ∉ enumKeys (jGetPath v pi2)) :
    jGetPath s2 (pi2 ++ [k]) = jGetPath s (pi2 ++ [k]) := by
  obtain ⟨i, own, inh, rfl⟩ := isPlainObject_iff.mp (plainAlongB_head hpa)
  rw [stateMerge_obj_none] at h
  exact mergeLoop_frame_deep pi2 i own inh k s s2 ign h hwf hni hpa hk

/-- Witness for C4 amended: merging `{a: {x: 9}}` into
`{a: {x: 1, y: 2}, b: 3}` leaves the depth-one key `y` (absent from the
source subtree at "a") unchanged. -/
theorem stateMerge_frame_disjoint_paths_witness :
    jGetPath (JVal.vobj 0 [("a", JVal.vobj 1
        [("x", JVal.vnum 9), ("y", JVal.vnum 2)] []), ("b", JVal.vnum 3)] [])
      ["a", "y"]
    = jGetPath (JVal.vobj 0 [("a", JVal.vobj 1
        [("x", JVal.vnum 1), ("y", JVal.vnum 2)] []), ("b", JVal.vnum 3)] [])
      ["a", "y"] := by
  have h := stateMerge_eval (show stateMergeF 6
      (JVal.vobj 0 [("a", JVal.vobj 1
        [("x", JVal.vnum 1), ("y", JVal.vnum 2)] []), ("b", JVal.vnum 3)] [])
      (JVal.vobj 2 [("a", JVal.vobj 3 [("x", JVal.vnum 9)] [])] []) none false
      = some (.ok (JVal.vobj 0 [("a", JVal.vobj 1
        [("x", JVal.vnum 9), ("y", JVal.vnum 2)] []), ("b", JVal.vnum 3)] []))
      from rfl)
  refine @stateMerge_frame_disjoint_paths _ _ _ _ h ?_ ?_ ["a"] "y" (by rfl)
    (by decide)
  · refine WfKeys.obj 2 _ _ (by simp) (by simp) ?_ (by intro p hp; cases hp)
    intro p hp
    rw [List.mem_singleton] at hp
    subst hp
    refine WfKeys.obj 3 _ _ (by simp) (by simp) ?_ (by intro p hp; cases hp)
    intro p hp
    rw [List.mem_singleton] at hp
    subst hp
    exact WfKeys.leaf _ rfl
  · refine NoInh.vobj 0 _ ?_
    intro p hp
    rcases List.mem_cons.mp hp with h1 | h1
    · subst h1
      refine NoInh.vobj 1 _ ?_
      intro q hq
      rcases List.mem_cons.mp hq with h2 | h2
      · subst h2
        exact NoInh.vnum 1
      · rw [List.mem_singleton] at h2
        subst h2
        exact NoInh.vnum 2
    · rw [List.mem_singleton] at h1
      subst h1
      exact NoInh.vnum 3
